import Mathlib

/-!
Shallow embedding of the q565 image codec (repository seritools/q565) and
verification of its specification claims.

Pixels and bytes are modelled as `Nat` carrying `u16`/`u8` values; machine
wrap-around is written as explicit `% 2^w`.  Bit extraction of the form
`(x & mask) >> k` on contiguous masks is written `x / 2^k % 2^width`, which is
extensionally equal for every `Nat`.  Fallible Rust functions return
`Option`/`Except`.  Mutation of `&mut self` contexts becomes explicit
state passing: each function returns the bytes/pixels it wrote together with
the updated context.
-/

namespace Q565

/-- `utils.rs::ByteOrder::to_wire` for `LittleEndian`: on the wire a pixel is
the little-endian `u16` value itself. -/
def toWireLE (n : Nat) : Nat := n

/-- `utils.rs::ByteOrder::to_wire` for `BigEndian`: byte-swap of the `u16`. -/
def toWireBE (n : Nat) : Nat := (n % 256) * 256 + (n / 256 % 256)

/-- `utils.rs::decode_565`: split an RGB565 pixel into its components.
`(pixel & 0xF800) >> 11` extracts bits 11..15, i.e. `pixel / 2^11 % 2^5`;
`(pixel & 0x07E0) >> 5` is `pixel / 2^5 % 2^6`; `pixel & 0x1F` is
`pixel % 2^5`. -/
def decode_565 (pixel : Nat) : Nat × Nat × Nat :=
  (pixel / 2048 % 32, pixel / 32 % 64, pixel % 32)

/-- `utils.rs::encode_rgb565_unchecked`: pack 5/6/5-bit components
(`(r << 11) | (g << 5) | b`; the fields are disjoint for in-range components,
so the shifts-and-or equals this sum; callers guarantee the widths). -/
def encode_rgb565_unchecked (r g b : Nat) : Nat :=
  r * 2048 + g * 32 + b

/-- `utils.rs::hash`: sum of the two bytes of the pixel, low 6 bits.
`u8::wrapping_add` then `& 0b111111` is addition mod 64 (since `64 ∣ 256`). -/
def hash (pixel : Nat) : Nat :=
  (pixel % 256 + pixel / 256 % 256) % 64

/-- `utils.rs::sum_n::<N>`: apply a signed difference to an N-bit field,
wrapping modulo `2^N` (the `i8` shift trick `((a+d) << (8-N)) as u8 >> (8-N)`
keeps exactly the low N bits of the wrapped sum). -/
def sum_n (N : Nat) (a : Nat) (d : Int) : Nat :=
  (((a : Int) + d) % ((2 ^ N : Nat) : Int)).toNat

/-- `utils.rs::diff_n::<N>`: the 2s-complement N-bit signed difference
(`(a.wrapping_sub(b) as i8) << (8-N) >> (8-N)` sign-extends the low N bits of
`a - b`): the unique `d ∈ [-2^(N-1), 2^(N-1))` with `d ≡ a - b (mod 2^N)`. -/
def diff_n (N : Nat) (a b : Nat) : Int :=
  ((a : Int) - (b : Int) + 2 ^ (N - 1)) % ((2 ^ N : Nat) : Int) - 2 ^ (N - 1)

/-- `utils.rs::apply_diff` (also `decode/ops.rs::apply_diff`): unpack, apply
per-channel wrapped sums, repack. -/
def apply_diff (prev : Nat) (r_diff g_diff b_diff : Int) : Nat :=
  let (r, g, b) := decode_565 prev
  encode_rgb565_unchecked (sum_n 5 r r_diff) (sum_n 6 g g_diff) (sum_n 5 b b_diff)

/-- `decode/ops.rs::direct_small_diff` (opcode `01`): 2-bit biased diffs. -/
def direct_small_diff (prev byte : Nat) : Nat :=
  apply_diff prev ((byte / 16 % 4 : Nat) - 2) ((byte / 4 % 4 : Nat) - 2)
    ((byte % 4 : Nat) - 2)

/-- `decode/ops.rs::direct_bigger_diff` (opcode `100`, LUMA): 5-bit green
diff plus 4-bit red/blue-minus-green diffs in the second byte. -/
def direct_bigger_diff (prev byte second_byte : Nat) : Nat :=
  let g_diff : Int := (byte % 32 : Nat) - 16
  let rg_diff : Int := (second_byte / 16 : Nat) - 8
  let bg_diff : Int := (second_byte % 16 : Nat) - 8
  apply_diff prev (rg_diff + g_diff) g_diff (bg_diff + g_diff)

/-- `decode/ops.rs::indexed_diff` (opcode `101`, DIFF_INDEXED): diffs against
a color-array entry chosen by the low 6 bits of the second byte. -/
def indexed_diff (arr : List Nat) (byte second_byte : Nat) : Nat :=
  let g_diff : Int := (byte / 4 % 8 : Nat) - 4
  let r_diff : Int := (byte % 4 : Nat) - 2
  let b_diff : Int := (second_byte / 64 : Nat) - 2
  let index : Nat := second_byte % 64
  apply_diff (arr.getD index 0) r_diff g_diff b_diff

/-- `u16::to_le_bytes`. -/
def u16le (n : Nat) : List Nat := [n % 256, n / 256 % 256]

/-! Opcode base values.  The repository's `consts` module is not under `src/`;
these values are modelled from the spec's opcode table (§4.2) and the wire
documentation in `lib.rs`, and are pinned by the bit tests in the decoders
(`byte >> 6`, `byte & 0b0010_0000`, the literal `0b1100_0000` in the encoders,
and the `0xFE`/`0xFF` comparisons). -/

/-- Modelled from the spec: opcode tag `00iiiiii`. -/
def Q565_OP_INDEX : Nat := 0x00
/-- Modelled from the spec: opcode tag `01rrggbb`. -/
def Q565_OP_DIFF : Nat := 0x40
/-- Modelled from the spec: opcode tag `100ggggg`. -/
def Q565_OP_LUMA : Nat := 0x80
/-- Modelled from the spec: opcode tag `101gggrr`. -/
def Q565_OP_DIFF_INDEXED : Nat := 0xA0
/-- Modelled from the spec: opcode tag `11nnnnnn`. -/
def Q565_OP_RUN : Nat := 0xC0
/-- Modelled from the spec: raw RGB565 literal marker. -/
def Q565_OP_RGB565 : Nat := 0xFE
/-- Modelled from the spec: end-of-stream marker. -/
def Q565_OP_END : Nat := 0xFF

/-! ## Encoder (`encode.rs`) -/

/-- `encode.rs::Q565EncodeContext`: previous pixel, its cached components,
the 64-entry color array and its cached components. -/
structure Q565EncodeContext where
  prev : Nat
  prev_components : Nat × Nat × Nat
  arr : List Nat
  arr_components : List (Nat × Nat × Nat)
  deriving DecidableEq, Repr

/-- `Q565EncodeContext::new`. -/
def Q565EncodeContext.new : Q565EncodeContext :=
  { prev := 0
    prev_components := (0, 0, 0)
    arr := List.replicate 64 0
    arr_components := List.replicate 64 (0, 0, 0) }

/-- The `arr_components.iter().enumerate().find_map(..)` scan of
`encode_to_vec_with_state`: first color-array slot whose per-channel diffs to
the pixel's components `(r, g, b)` fit DIFF_INDEXED; returns the two opcode
bytes.  `i` is the index of the first element of `comps` in the full array. -/
def diffIndexedScan (r g b : Nat) : List (Nat × Nat × Nat) → Nat → Option (List Nat)
  | [], _ => none
  | (r_arr, g_arr, b_arr) :: tl, i =>
    let r_diff := diff_n 5 r r_arr
    let g_diff := diff_n 6 g g_arr
    let b_diff := diff_n 5 b b_arr
    if -2 ≤ r_diff ∧ r_diff ≤ 1 ∧ -4 ≤ g_diff ∧ g_diff ≤ 3 ∧ -2 ≤ b_diff ∧ b_diff ≤ 1 then
      some [Q565_OP_DIFF_INDEXED ||| ((g_diff + 4).toNat <<< 2) ||| (r_diff + 2).toNat,
            ((b_diff + 2).toNat <<< 6) ||| i]
    else
      diffIndexedScan r g b tl (i + 1)

/-- The per-pixel loop of `Q565EncodeContext::encode_to_vec_with_state`
(`encode.rs` lines 62-156): bytes pushed and the final context.
A pixel equal to `prev` starts a run over the following equal pixels
(`take_while`, then the iterator is advanced past them); otherwise `prev` and
its cached components are updated and INDEX / DIFF / LUMA / DIFF_INDEXED /
RGB565 are tried in order, the last three inserting into the color array. -/
def encodeLoop (ctx : Q565EncodeContext) : List Nat → List Nat × Q565EncodeContext
  | [] => ([], ctx)
  | pixel :: rest =>
    if pixel = ctx.prev then
      let repeats := (rest.takeWhile (fun p => p = ctx.prev)).length
      let count := repeats + 1
      let runBytes := List.replicate (count / 62) (0xC0 ||| (62 - 1)) ++
        (if count % 62 > 0 then [0xC0 ||| (count % 62 - 1)] else [])
      let (out, ctxF) := encodeLoop ctx (rest.drop repeats)
      (runBytes ++ out, ctxF)
    else
      let (r, g, b) := decode_565 pixel
      let (r_prev, g_prev, b_prev) := ctx.prev_components
      let h := hash pixel
      let ctx1 := { ctx with prev := pixel, prev_components := (r, g, b) }
      if ctx.arr.getD h 0 = pixel then
        let (out, ctxF) := encodeLoop ctx1 rest
        (h :: out, ctxF)
      else
        let r_diff := diff_n 5 r r_prev
        let g_diff := diff_n 6 g g_prev
        let b_diff := diff_n 5 b b_prev
        if -2 ≤ r_diff ∧ r_diff ≤ 1 ∧ -2 ≤ g_diff ∧ g_diff ≤ 1 ∧
            -2 ≤ b_diff ∧ b_diff ≤ 1 then
          let byte := Q565_OP_DIFF ||| ((r_diff + 2).toNat <<< 4) |||
            ((g_diff + 2).toNat <<< 2) ||| (b_diff + 2).toNat
          let (out, ctxF) := encodeLoop ctx1 rest
          (byte :: out, ctxF)
        else
          let rg_diff := r_diff - g_diff
          let bg_diff := b_diff - g_diff
          let bytes :=
            if -8 ≤ rg_diff ∧ rg_diff ≤ 7 ∧ -16 ≤ g_diff ∧ g_diff ≤ 15 ∧
                -8 ≤ bg_diff ∧ bg_diff ≤ 7 then
              [Q565_OP_LUMA ||| (g_diff + 16).toNat,
               ((rg_diff + 8).toNat <<< 4) ||| (bg_diff + 8).toNat]
            else
              match diffIndexedScan r g b ctx.arr_components 0 with
              | some bs => bs
              | none => [Q565_OP_RGB565, pixel % 256, pixel / 256 % 256]
          let ctx2 := { ctx1 with
            arr := ctx.arr.set h pixel
            arr_components := ctx.arr_components.set h (r, g, b) }
          let (out, ctxF) := encodeLoop ctx2 rest
          (bytes ++ out, ctxF)
  termination_by pixels => pixels.length
  decreasing_by
    · simp only [List.length_drop, List.length_cons]; omega
    · simp only [List.length_cons]; omega
    · simp only [List.length_cons]; omega
    · simp only [List.length_cons]; omega

/-- `Q565EncodeContext::encode_to_vec_with_state`: `false` (here `none`) and
nothing written when `width * height != pixels.len()`; otherwise the magic,
the little-endian dimensions, the encoded pixels, and the end marker. -/
def Q565EncodeContext.encode_to_vec_with_state (ctx : Q565EncodeContext)
    (width height : Nat) (pixels : List Nat) : Option (List Nat × Q565EncodeContext) :=
  if width * height ≠ pixels.length then
    none
  else
    let (body, ctxF) := encodeLoop ctx pixels
    some ([0x71, 0x35, 0x36, 0x35] ++ u16le width ++ u16le height ++ body ++
      [Q565_OP_END], ctxF)

/-! ## Block decoder (`decode.rs`, `decode/alloc_api.rs`) -/

/-- `decode.rs::Q565DecodeContext`: previous pixel and 64-entry color array. -/
structure Q565DecodeContext where
  prev : Nat
  arr : List Nat
  deriving DecidableEq, Repr

/-- `Q565DecodeContext::new`. -/
def Q565DecodeContext.new : Q565DecodeContext :=
  { prev := 0, arr := List.replicate 64 0 }

/-- `decode/alloc_api.rs::DecodeToVecError` (`decode.rs::DecodeError` has the
same two input-structure variants on the paths modelled here). -/
inductive DecodeToVecError where
  | UnexpectedEof
  | InvalidMagic
  deriving DecidableEq, Repr

/-- Result of decoding raw opcode data: pixels written to the sink, the final
context, and the input bytes left unconsumed after the END marker. -/
abbrev DecodeDataResult :=
  Except DecodeToVecError (List Nat × Q565DecodeContext × List Nat)

/-- Prepend already-produced sink output to a decode result. -/
def prependOut (xs : List Nat) : DecodeDataResult → DecodeDataResult
  | .ok (out, ctx, rest) => .ok (xs ++ out, ctx, rest)
  | .error e => .error e

/-- The opcode loop shared by `decode.rs::Q565DecodeContext::decode_data`
(with the unbounded `Vec` sink) and the loop inlined in
`decode/alloc_api.rs::decode_to_vec_with_state`: dispatch on the top two bits
of each byte, stop at `0xFF`.  `bo` is the caller-chosen byte-order transform
applied to every pixel written to the output.  Opcode values above `0b11`
cannot arise from a `u8` (`unreachable_unchecked` in the source); the final
match arm carries the `0b11` handling. -/
def decodeData (bo : Nat → Nat) : Q565DecodeContext → List Nat → DecodeDataResult
  | _, [] => .error .UnexpectedEof
  | ctx, byte :: rest =>
    if byte / 64 = 0 then
      let pixel := ctx.arr.getD byte 0
      prependOut [bo pixel] (decodeData bo { ctx with prev := pixel } rest)
    else if byte / 64 = 1 then
      let pixel := direct_small_diff ctx.prev byte
      prependOut [bo pixel] (decodeData bo { ctx with prev := pixel } rest)
    else if byte / 64 = 2 then
      match rest with
      | [] => .error .UnexpectedEof
      | second :: rest2 =>
        let pixel :=
          if byte % 64 < 32 then direct_bigger_diff ctx.prev byte second
          else indexed_diff ctx.arr byte second
        prependOut [bo pixel]
          (decodeData bo { prev := pixel, arr := ctx.arr.set (hash pixel) pixel } rest2)
    else
      if byte = 0xFE then
        match rest with
        | [] => .error .UnexpectedEof
        | lo :: rest2 =>
          match rest2 with
          | [] => .error .UnexpectedEof
          | hi :: rest3 =>
            let pixel := lo + 256 * hi
            prependOut [bo pixel]
              (decodeData bo { prev := pixel, arr := ctx.arr.set (hash pixel) pixel } rest3)
      else if byte ≠ 0xFF then
        let count := byte % 64 + 1
        prependOut (List.replicate count (bo ctx.prev)) (decodeData bo ctx rest)
      else
        .ok ([], ctx, rest)

/-- `HeaderInfo`. -/
structure HeaderInfo where
  width : Nat
  height : Nat
  deriving DecidableEq, Repr

/-- `decode/alloc_api.rs::Q565DecodeContext::decode_to_vec_with_state`:
check length and magic, parse the little-endian dimensions, then run the
opcode loop on the rest of the data. -/
def Q565DecodeContext.decode_to_vec_with_state (bo : Nat → Nat)
    (ctx : Q565DecodeContext) (data : List Nat) :
    Except DecodeToVecError (HeaderInfo × List Nat × Q565DecodeContext) :=
  if data.length < 9 then .error .UnexpectedEof
  else if data.take 4 ≠ [0x71, 0x35, 0x36, 0x35] then .error .InvalidMagic
  else
    let width := data.getD 4 0 + 256 * data.getD 5 0
    let height := data.getD 6 0 + 256 * data.getD 7 0
    match decodeData bo ctx (data.drop 8) with
    | .ok (pixels, ctxF, _) => .ok (⟨width, height⟩, pixels, ctxF)
    | .error e => .error e

/-! ## Streaming decoder (`decode/streaming_no_header.rs`) -/

/-- `Q565StreamingDecodeState`: what byte is expected next. -/
inductive Q565StreamingDecodeState where
  | Default
  | LumaOrDiffIndexedByte2 (byte1 : Nat)
  | RawRgb565Byte1
  | RawRgb565Byte2 (byte1 : Nat)
  deriving DecidableEq, Repr

/-- `Q565StreamingDecodeContext`. -/
structure Q565StreamingDecodeContext where
  state : Q565StreamingDecodeState
  prev : Nat
  arr : List Nat
  deriving DecidableEq, Repr

/-- `Q565StreamingDecodeContext::new`. -/
def Q565StreamingDecodeContext.new : Q565StreamingDecodeContext :=
  { state := .Default, prev := 0, arr := List.replicate 64 0 }

/-- One iteration of the `streaming_decode_to_slice_unchecked` loop: consume
one input byte in the current state.  Returns the pixels written by this
iteration, the updated context, and whether the loop returned because it hit
the END opcode (`0xFF` in the `Default` state).  The LUMA / DIFF_INDEXED /
raw-RGB565 completions are written through the `decode/ops.rs` helpers, whose
bodies the source inlines verbatim; `byte1 >> 5` is `0b101` whenever it is not
`0b100` for any byte stored by the `0b10` dispatch
(`unreachable_unchecked` in the source otherwise). -/
def streamStep (bo : Nat → Nat) (ctx : Q565StreamingDecodeContext) (byte : Nat) :
    List Nat × Q565StreamingDecodeContext × Bool :=
  match ctx.state with
  | .Default =>
    if byte / 64 = 0 then
      let pixel := ctx.arr.getD byte 0
      ([bo pixel], { ctx with prev := pixel }, false)
    else if byte / 64 = 1 then
      let pixel := direct_small_diff ctx.prev byte
      ([bo pixel], { ctx with prev := pixel }, false)
    else if byte / 64 = 2 then
      ([], { ctx with state := .LumaOrDiffIndexedByte2 byte }, false)
    else
      if byte = 0xFE then
        ([], { ctx with state := .RawRgb565Byte1 }, false)
      else if byte ≠ 0xFF then
        let count := byte % 64 + 1
        (List.replicate count (bo ctx.prev), ctx, false)
      else
        ([], ctx, true)
  | .LumaOrDiffIndexedByte2 byte1 =>
    let pixel :=
      if byte1 / 32 = 0b100 then direct_bigger_diff ctx.prev byte1 byte
      else indexed_diff ctx.arr byte1 byte
    ([bo pixel],
      { state := .Default, prev := pixel, arr := ctx.arr.set (hash pixel) pixel }, false)
  | .RawRgb565Byte1 =>
    ([], { ctx with state := .RawRgb565Byte2 byte }, false)
  | .RawRgb565Byte2 byte1 =>
    let pixel := byte1 + 256 * byte
    ([bo pixel],
      { state := .Default, prev := pixel, arr := ctx.arr.set (hash pixel) pixel }, false)

/-- `Q565StreamingDecodeContext::streaming_decode_to_slice_unchecked`: run
`streamStep` over the call's input.  Beyond the Rust return value (the pixel
count written to the output slice, here the length of the first component)
the model exposes the pixels themselves, the mutated context, the input bytes
left unconsumed when the END opcode caused the return, and whether it did. -/
def streamingDecode (bo : Nat → Nat) (ctx : Q565StreamingDecodeContext) :
    List Nat → List Nat × Q565StreamingDecodeContext × List Nat × Bool
  | [] => ([], ctx, [], false)
  | byte :: rest =>
    match streamStep bo ctx byte with
    | (out, ctx1, true) => (out, ctx1, rest, true)
    | (out, ctx1, false) =>
      let (out2, ctx2, left, ended) := streamingDecode bo ctx1 rest
      (out ++ out2, ctx2, left, ended)

/-- The caller protocol of the streaming decoder (as exercised by
`tests/roundtrip.rs`): feed each chunk in turn, advancing the output slice by
the returned pixel count, i.e. concatenating the per-call outputs. -/
def feedChunks (bo : Nat → Nat) (ctx : Q565StreamingDecodeContext) :
    List (List Nat) → List Nat × Q565StreamingDecodeContext
  | [] => ([], ctx)
  | c :: cs =>
    let (out, ctx1, _, _) := streamingDecode bo ctx c
    let (out2, ctx2) := feedChunks bo ctx1 cs
    (out ++ out2, ctx2)

/-! ## Writer-based encoder (`encode/std_api.rs`) -/

/-- `encode/std_api.rs::EncodeError` (I/O errors cannot arise for the pure
byte-buffer writer modelled here). -/
inductive EncodeError where
  | InvalidDimensions
  deriving DecidableEq, Repr

/-- The per-pixel loop of `Q565EncodeContext::encode_pixels`
(`encode/std_api.rs` lines 72-171), byte-for-byte the same algorithm as
`encodeLoop` but writing through `io::Write` and spelling the INDEX and RUN
bytes with the named opcode constants. -/
def encodeLoopW (ctx : Q565EncodeContext) : List Nat → List Nat × Q565EncodeContext
  | [] => ([], ctx)
  | pixel :: rest =>
    if pixel = ctx.prev then
      let repeats := (rest.takeWhile (fun p => p = ctx.prev)).length
      let count := repeats + 1
      let runBytes := List.replicate (count / 62) (Q565_OP_RUN ||| (62 - 1)) ++
        (if count % 62 > 0 then [Q565_OP_RUN ||| (count % 62 - 1)] else [])
      let (out, ctxF) := encodeLoopW ctx (rest.drop repeats)
      (runBytes ++ out, ctxF)
    else
      let (r, g, b) := decode_565 pixel
      let (r_prev, g_prev, b_prev) := ctx.prev_components
      let h := hash pixel
      let ctx1 := { ctx with prev := pixel, prev_components := (r, g, b) }
      if ctx.arr.getD h 0 = pixel then
        let (out, ctxF) := encodeLoopW ctx1 rest
        ((Q565_OP_INDEX ||| h) :: out, ctxF)
      else
        let r_diff := diff_n 5 r r_prev
        let g_diff := diff_n 6 g g_prev
        let b_diff := diff_n 5 b b_prev
        if -2 ≤ r_diff ∧ r_diff ≤ 1 ∧ -2 ≤ g_diff ∧ g_diff ≤ 1 ∧
            -2 ≤ b_diff ∧ b_diff ≤ 1 then
          let byte := Q565_OP_DIFF ||| ((r_diff + 2).toNat <<< 4) |||
            ((g_diff + 2).toNat <<< 2) ||| (b_diff + 2).toNat
          let (out, ctxF) := encodeLoopW ctx1 rest
          (byte :: out, ctxF)
        else
          let rg_diff := r_diff - g_diff
          let bg_diff := b_diff - g_diff
          let bytes :=
            if -8 ≤ rg_diff ∧ rg_diff ≤ 7 ∧ -16 ≤ g_diff ∧ g_diff ≤ 15 ∧
                -8 ≤ bg_diff ∧ bg_diff ≤ 7 then
              [Q565_OP_LUMA ||| (g_diff + 16).toNat,
               ((rg_diff + 8).toNat <<< 4) ||| (bg_diff + 8).toNat]
            else
              match diffIndexedScan r g b ctx.arr_components 0 with
              | some bs => bs
              | none => [Q565_OP_RGB565, pixel % 256, pixel / 256 % 256]
          let ctx2 := { ctx1 with
            arr := ctx.arr.set h pixel
            arr_components := ctx.arr_components.set h (r, g, b) }
          let (out, ctxF) := encodeLoopW ctx2 rest
          (bytes ++ out, ctxF)
  termination_by pixels => pixels.length
  decreasing_by
    · simp only [List.length_drop, List.length_cons]; omega
    · simp only [List.length_cons]; omega
    · simp only [List.length_cons]; omega
    · simp only [List.length_cons]; omega

/-- `Q565EncodeContext::encode_pixels`: the loop above followed by the end
marker. -/
def Q565EncodeContext.encode_pixels (ctx : Q565EncodeContext) (pixels : List Nat) :
    List Nat × Q565EncodeContext :=
  let (out, ctxF) := encodeLoopW ctx pixels
  (out ++ [Q565_OP_END], ctxF)

/-- `Q565EncodeContext::encode_header`. -/
def Q565EncodeContext.encode_header (width height : Nat) : List Nat :=
  [0x71, 0x35, 0x36, 0x35] ++ u16le width ++ u16le height

/-- `Q565EncodeContext::encode_with_state`: dimension check, header, pixels. -/
def Q565EncodeContext.encode_with_state (ctx : Q565EncodeContext)
    (width height : Nat) (pixels : List Nat) :
    Except EncodeError (List Nat × Q565EncodeContext) :=
  if width * height ≠ pixels.length then
    .error .InvalidDimensions
  else
    let (out, ctxF) := ctx.encode_pixels pixels
    .ok (Q565EncodeContext.encode_header width height ++ out, ctxF)

instance {ε α : Type} [DecidableEq ε] [DecidableEq α] : DecidableEq (Except ε α) :=
  fun a b =>
    match a, b with
    | .ok x, .ok y => if h : x = y then isTrue (by simp [h]) else isFalse (by simp [h])
    | .error x, .error y => if h : x = y then isTrue (by simp [h]) else isFalse (by simp [h])
    | .ok _, .error _ => isFalse (by simp)
    | .error _, .ok _ => isFalse (by simp)

/-! ## Arithmetic and bit-field helper lemmas -/

theorem hash_lt (pixel : Nat) : hash pixel < 64 := by
  simp only [hash]; omega

theorem sum_diff5 (a b : Nat) (ha : a < 32) : sum_n 5 b (diff_n 5 a b) = a := by
  simp only [sum_n, diff_n]
  norm_num
  omega

theorem sum_diff6 (a b : Nat) (ha : a < 64) : sum_n 6 b (diff_n 6 a b) = a := by
  simp only [sum_n, diff_n]
  norm_num
  omega

/-- Re-applying a pixel's per-channel `diff_n`s against any base pixel
reconstructs the pixel. -/
theorem apply_diff_round (p q : Nat) (hp : p < 65536) :
    apply_diff q (diff_n 5 (p / 2048 % 32) (q / 2048 % 32))
      (diff_n 6 (p / 32 % 64) (q / 32 % 64)) (diff_n 5 (p % 32) (q % 32)) = p := by
  simp only [apply_diff, decode_565, encode_rgb565_unchecked]
  rw [sum_diff5 _ _ (by omega), sum_diff6 _ _ (by omega), sum_diff5 _ _ (by omega)]
  omega

theorem diff_byte_fields : ∀ x < 4, ∀ y < 4, ∀ z < 4,
    (0x40 ||| (x <<< 4) ||| (y <<< 2) ||| z) / 64 = 1 ∧
    (0x40 ||| (x <<< 4) ||| (y <<< 2) ||| z) / 16 % 4 = x ∧
    (0x40 ||| (x <<< 4) ||| (y <<< 2) ||| z) / 4 % 4 = y ∧
    (0x40 ||| (x <<< 4) ||| (y <<< 2) ||| z) % 4 = z ∧
    (0x40 ||| (x <<< 4) ||| (y <<< 2) ||| z) < 256 := by decide

theorem luma_byte1_fields : ∀ w < 32,
    (0x80 ||| w) / 64 = 2 ∧ (0x80 ||| w) % 64 < 32 ∧ (0x80 ||| w) % 32 = w ∧
    (0x80 ||| w) < 256 := by decide

theorem luma_byte2_fields : ∀ u < 16, ∀ v < 16,
    ((u <<< 4) ||| v) / 16 = u ∧ ((u <<< 4) ||| v) % 16 = v ∧
    ((u <<< 4) ||| v) < 256 := by decide

theorem diff_indexed_byte1_fields : ∀ x < 8, ∀ y < 4,
    (0xA0 ||| (x <<< 2) ||| y) / 64 = 2 ∧ ¬((0xA0 ||| (x <<< 2) ||| y) % 64 < 32) ∧
    (0xA0 ||| (x <<< 2) ||| y) / 4 % 8 = x ∧ (0xA0 ||| (x <<< 2) ||| y) % 4 = y ∧
    (0xA0 ||| (x <<< 2) ||| y) < 256 := by decide

theorem diff_indexed_byte2_fields : ∀ z < 4, ∀ i < 64,
    ((z <<< 6) ||| i) / 64 = z ∧ ((z <<< 6) ||| i) % 64 = i ∧
    ((z <<< 6) ||| i) < 256 := by decide

theorem run_byte_fields : ∀ c < 62,
    (0xC0 ||| c) / 64 = 3 ∧ (0xC0 ||| c) ≠ 0xFE ∧ (0xC0 ||| c) ≠ 0xFF ∧
    (0xC0 ||| c) % 64 = c ∧ (0xC0 ||| c) < 256 := by decide

@[simp] theorem prependOut_nil (r : DecodeDataResult) : prependOut [] r = r := by
  cases r <;> simp [prependOut]

theorem prependOut_prependOut (a b : List Nat) (r : DecodeDataResult) :
    prependOut a (prependOut b r) = prependOut (a ++ b) r := by
  cases r <;> simp [prependOut]

theorem getD_set_eq {α : Type} (l : List α) (i : Nat) (v d : α) (h : i < l.length) :
    (l.set i v).getD i d = v := by
  simp [List.getD_eq_getElem?_getD, List.getElem?_set_self h]

theorem getD_set_ne {α : Type} (l : List α) {i j : Nat} (v d : α) (h : i ≠ j) :
    (l.set i v).getD j d = l.getD j d := by
  simp [List.getD_eq_getElem?_getD, List.getElem?_set_ne h]

/-! ## Decode-step equations -/

theorem decodeData_index (bo : Nat → Nat) (ctx : Q565DecodeContext) (byte : Nat)
    (rest : List Nat) (h : byte / 64 = 0) :
    decodeData bo ctx (byte :: rest) =
      prependOut [bo (ctx.arr.getD byte 0)]
        (decodeData bo { ctx with prev := ctx.arr.getD byte 0 } rest) := by
  rw [decodeData.eq_def]
  simp [h]

theorem decodeData_diff (bo : Nat → Nat) (ctx : Q565DecodeContext) (byte : Nat)
    (rest : List Nat) (h : byte / 64 = 1) :
    decodeData bo ctx (byte :: rest) =
      prependOut [bo (direct_small_diff ctx.prev byte)]
        (decodeData bo { ctx with prev := direct_small_diff ctx.prev byte } rest) := by
  rw [decodeData.eq_def]
  simp [h]

theorem decodeData_luma (bo : Nat → Nat) (ctx : Q565DecodeContext) (byte second : Nat)
    (rest : List Nat) (h : byte / 64 = 2) (h2 : byte % 64 < 32) :
    decodeData bo ctx (byte :: second :: rest) =
      prependOut [bo (direct_bigger_diff ctx.prev byte second)]
        (decodeData bo
          { prev := direct_bigger_diff ctx.prev byte second,
            arr := ctx.arr.set (hash (direct_bigger_diff ctx.prev byte second))
              (direct_bigger_diff ctx.prev byte second) } rest) := by
  rw [decodeData.eq_def]
  simp [h, h2]

theorem decodeData_diff_indexed (bo : Nat → Nat) (ctx : Q565DecodeContext)
    (byte second : Nat) (rest : List Nat) (h : byte / 64 = 2) (h2 : ¬(byte % 64 < 32)) :
    decodeData bo ctx (byte :: second :: rest) =
      prependOut [bo (indexed_diff ctx.arr byte second)]
        (decodeData bo
          { prev := indexed_diff ctx.arr byte second,
            arr := ctx.arr.set (hash (indexed_diff ctx.arr byte second))
              (indexed_diff ctx.arr byte second) } rest) := by
  rw [decodeData.eq_def]
  simp [h, h2]

theorem decodeData_rgb565 (bo : Nat → Nat) (ctx : Q565DecodeContext) (lo hi : Nat)
    (rest : List Nat) :
    decodeData bo ctx (0xFE :: lo :: hi :: rest) =
      prependOut [bo (lo + 256 * hi)]
        (decodeData bo
          { prev := lo + 256 * hi,
            arr := ctx.arr.set (hash (lo + 256 * hi)) (lo + 256 * hi) } rest) := by
  rw [decodeData.eq_def]
  norm_num

theorem decodeData_run (bo : Nat → Nat) (ctx : Q565DecodeContext) (byte : Nat)
    (rest : List Nat) (h : byte / 64 = 3) (hne1 : byte ≠ 0xFE) (hne2 : byte ≠ 0xFF) :
    decodeData bo ctx (byte :: rest) =
      prependOut (List.replicate (byte % 64 + 1) (bo ctx.prev))
        (decodeData bo ctx rest) := by
  rw [decodeData.eq_def]
  simp [h, hne1, hne2]

theorem decodeData_end (bo : Nat → Nat) (ctx : Q565DecodeContext) (rest : List Nat) :
    decodeData bo ctx (0xFF :: rest) = .ok ([], ctx, rest) := by
  rw [decodeData.eq_def]
  norm_num

theorem prependOut_ok_iff (xs : List Nat) (r : DecodeDataResult)
    (out : List Nat) (c : Q565DecodeContext) (l : List Nat) :
    prependOut xs r = .ok (out, c, l) ↔
      ∃ out2, r = .ok (out2, c, l) ∧ out = xs ++ out2 := by
  cases r with
  | ok x =>
    obtain ⟨o, c2, l2⟩ := x
    simp only [prependOut, Except.ok.injEq, Prod.mk.injEq]
    constructor
    · rintro ⟨h1, h2, h3⟩
      exact ⟨o, by simp [h2, h3], h1.symm⟩
    · rintro ⟨o2, h1, h2⟩
      obtain ⟨h3, h4, h5⟩ := Prod.mk.injEq .. ▸ h1
      simp_all
  | error e => simp [prependOut]

/-- The opcode loop never changes the length of the color array: every write
goes through `List.set`. -/
theorem decodeData_arr_length : ∀ (n : Nat) (input : List Nat) (bo : Nat → Nat)
    (ctx : Q565DecodeContext) (out : List Nat) (ctxF : Q565DecodeContext)
    (left : List Nat), input.length ≤ n →
    decodeData bo ctx input = .ok (out, ctxF, left) →
    ctxF.arr.length = ctx.arr.length := by
  intro n
  induction n with
  | zero =>
    intro input bo ctx out ctxF left hlen hdec
    cases input with
    | nil =>
      rw [decodeData.eq_def] at hdec
      exact absurd hdec (by simp)
    | cons b t => simp at hlen
  | succ n ih =>
    intro input bo ctx out ctxF left hlen hdec
    match input with
    | [] =>
      rw [decodeData.eq_def] at hdec
      exact absurd hdec (by simp)
    | byte :: rest =>
      rw [decodeData.eq_def] at hdec
      simp only at hdec
      by_cases h0 : byte / 64 = 0
      · rw [if_pos h0, prependOut_ok_iff] at hdec
        obtain ⟨o2, hrec, -⟩ := hdec
        exact (ih rest bo _ _ _ _ (by simp at hlen; omega) hrec).trans rfl
      · rw [if_neg h0] at hdec
        by_cases h1 : byte / 64 = 1
        · rw [if_pos h1, prependOut_ok_iff] at hdec
          obtain ⟨o2, hrec, -⟩ := hdec
          exact (ih rest bo _ _ _ _ (by simp at hlen; omega) hrec).trans rfl
        · rw [if_neg h1] at hdec
          by_cases h2 : byte / 64 = 2
          · rw [if_pos h2] at hdec
            match rest with
            | [] => exact absurd hdec (by simp)
            | second :: rest2 =>
              simp only [prependOut_ok_iff] at hdec
              obtain ⟨o2, hrec, -⟩ := hdec
              exact (ih rest2 bo _ _ _ _ (by simp at hlen; omega) hrec).trans
                (by simp [List.length_set])
          · rw [if_neg h2] at hdec
            by_cases hfe : byte = 0xFE
            · rw [if_pos hfe] at hdec
              match rest with
              | [] => exact absurd hdec (by simp)
              | [lo] => exact absurd hdec (by simp)
              | lo :: hi :: rest3 =>
                simp only [prependOut_ok_iff] at hdec
                obtain ⟨o2, hrec, -⟩ := hdec
                exact (ih rest3 bo _ _ _ _ (by simp at hlen; omega) hrec).trans
                  (by simp [List.length_set])
            · rw [if_neg hfe] at hdec
              by_cases hff : byte = 0xFF
              · rw [if_neg (by simp [hff])] at hdec
                simp only [Except.ok.injEq, Prod.mk.injEq] at hdec
                rw [← hdec.2.1]
              · rw [if_pos (by simp [hff]), prependOut_ok_iff] at hdec
                obtain ⟨o2, hrec, -⟩ := hdec
                exact (ih rest bo _ _ _ _ (by simp at hlen; omega) hrec).trans rfl

/-! ## Claim theorems (part 1) -/

/-- Claim C8: `encode_to_vec_with_state` fails (returns `false`, modelled as
`none`, with no bytes appended and the context untouched) exactly when
`width * height` differs from the number of pixels; otherwise it succeeds. -/
theorem encode_dimension_check (ctx : Q565EncodeContext) (width height : Nat)
    (pixels : List Nat) :
    Q565EncodeContext.encode_to_vec_with_state ctx width height pixels = none ↔
      width * height ≠ pixels.length := by
  rw [Q565EncodeContext.encode_to_vec_with_state]
  split
  · simp_all
  · simp_all

/-- Claim C6 (counterexample): scenario S1 as written is false: encoding
`w=2, h=1, pixels=[0,0]` does not produce the run byte `0xC0`; the two-pixel
run is stored biased by −1, giving `0xC1`. -/
theorem scenario_s1_counterexample :
    (Q565EncodeContext.encode_to_vec_with_state .new 2 1 [0, 0]).map Prod.fst =
        some [0x71, 0x35, 0x36, 0x35, 0x02, 0x00, 0x01, 0x00, 0xC1, 0xFF] ∧
      some [0x71, 0x35, 0x36, 0x35, 0x02, 0x00, 0x01, 0x00, 0xC1, 0xFF] ≠
        some ([0x71, 0x35, 0x36, 0x35, 0x02, 0x00, 0x01, 0x00, 0xC0, 0xFF] : List Nat) := by
  constructor
  · rw [Q565EncodeContext.encode_to_vec_with_state]
    norm_num
    rw [encodeLoop.eq_def]
    norm_num [Q565EncodeContext.new]
    rw [encodeLoop.eq_def]
    norm_num [u16le, Q565_OP_END]
    decide
  · decide

/-- Claim C6 (amended): encoding `w=2, h=1, pixels=[0,0]` produces exactly
`"q565" 02 00 01 00 C1 FF` (run of 2, biased count byte `0xC1`), and decoding
that stream yields the original two pixels under header `{2, 1}`. -/
theorem scenario_s1_amended :
    (Q565EncodeContext.encode_to_vec_with_state .new 2 1 [0, 0]).map Prod.fst =
        some [0x71, 0x35, 0x36, 0x35, 0x02, 0x00, 0x01, 0x00, 0xC1, 0xFF] ∧
      Q565DecodeContext.decode_to_vec_with_state toWireLE .new
        [0x71, 0x35, 0x36, 0x35, 0x02, 0x00, 0x01, 0x00, 0xC1, 0xFF] =
        .ok (⟨2, 1⟩, [0, 0], ⟨0, List.replicate 64 0⟩) := by
  constructor
  · rw [Q565EncodeContext.encode_to_vec_with_state]
    norm_num
    rw [encodeLoop.eq_def]
    norm_num [Q565EncodeContext.new]
    rw [encodeLoop.eq_def]
    norm_num [u16le, Q565_OP_END]
    decide
  · decide

/-- Claim C7 (counterexample): scenario S3 as written is false: encoding
`w=1, h=1, pixels=[0x0021]` emits the DIFF byte `0x6F`
(`01 10 11 11`: dr=0, dg=+1, db=+1 biased by +2), not `0x4A`. -/
theorem scenario_s3_counterexample :
    (Q565EncodeContext.encode_to_vec_with_state .new 1 1 [0x21]).map Prod.fst =
        some [0x71, 0x35, 0x36, 0x35, 0x01, 0x00, 0x01, 0x00, 0x6F, 0xFF] ∧
      some [0x71, 0x35, 0x36, 0x35, 0x01, 0x00, 0x01, 0x00, 0x6F, 0xFF] ≠
        some ([0x71, 0x35, 0x36, 0x35, 0x01, 0x00, 0x01, 0x00, 0x4A, 0xFF] : List Nat) := by
  constructor
  · rw [Q565EncodeContext.encode_to_vec_with_state]
    norm_num
    rw [encodeLoop.eq_def]
    norm_num [Q565EncodeContext.new, hash, decode_565, diff_n, Q565_OP_DIFF]
    rw [encodeLoop.eq_def]
    norm_num [u16le, Q565_OP_END]
    decide
  · decide

/-- Claim C7 (amended): encoding `w=1, h=1, pixels=[0x0021]` (green +1 and
blue +1 from `PREV = 0`) produces `"q565" 01 00 01 00 6F FF` with the single
DIFF byte `0x6F` (`01 10 11 11`), and decoding that stream reproduces
`[0x0021]`. -/
theorem scenario_s3_amended :
    (Q565EncodeContext.encode_to_vec_with_state .new 1 1 [0x21]).map Prod.fst =
        some [0x71, 0x35, 0x36, 0x35, 0x01, 0x00, 0x01, 0x00, 0x6F, 0xFF] ∧
      Q565DecodeContext.decode_to_vec_with_state toWireLE .new
        [0x71, 0x35, 0x36, 0x35, 0x01, 0x00, 0x01, 0x00, 0x6F, 0xFF] =
        .ok (⟨1, 1⟩, [0x21], ⟨0x21, List.replicate 64 0⟩) := by
  constructor
  · rw [Q565EncodeContext.encode_to_vec_with_state]
    norm_num
    rw [encodeLoop.eq_def]
    norm_num [Q565EncodeContext.new, hash, decode_565, diff_n, Q565_OP_DIFF]
    rw [encodeLoop.eq_def]
    norm_num [u16le, Q565_OP_END]
    decide
  · decide

/-- Claim C9: the streaming decoder does not latch end-of-stream.  Consuming
`0xFF` in the `Default` state returns at once: no pixels are produced for it,
the remaining bytes of the chunk are left unconsumed, and `prev`, the color
array and the state tag are unchanged; a later call on further input behaves
exactly as if the END byte had never been seen. -/
theorem streaming_end_not_latched (bo : Nat → Nat)
    (ctx : Q565StreamingDecodeContext) (rest : List Nat)
    (hstate : ctx.state = .Default) :
    streamingDecode bo ctx (0xFF :: rest) = ([], ctx, rest, true) ∧
      ∀ more, streamingDecode bo
        (streamingDecode bo ctx (0xFF :: rest)).2.1 more =
        streamingDecode bo ctx more := by
  obtain ⟨st, p, a⟩ := ctx
  simp only at hstate
  subst hstate
  have hstep : streamStep bo ⟨.Default, p, a⟩ 0xFF = ([], ⟨.Default, p, a⟩, true) := by
    simp [streamStep]
  constructor
  · simp [streamingDecode, hstep]
  · intro more
    simp [streamingDecode, hstep]

theorem streaming_end_not_latched_witness :
    streamingDecode toWireLE .new (0xFF :: [0x40]) =
      ([], Q565StreamingDecodeContext.new, [0x40], true) :=
  (streaming_end_not_latched toWireLE .new [0x40] rfl).1

/-- Claim C10: the unchecked color-array accesses of the validating decoder
are in bounds: the INDEX branch is taken only when `byte >> 6 = 0`, which
forces `byte < 64`; every insertion happens at `hash pixel < 64`; and the
opcode loop never changes the 64-entry length of the array. -/
theorem decoder_array_access_in_bounds :
    (∀ byte : Nat, byte / 64 = 0 → byte < 64) ∧
      (∀ pixel : Nat, hash pixel < 64) ∧
      (∀ (bo : Nat → Nat) (ctx : Q565DecodeContext) (input out left : List Nat)
        (ctxF : Q565DecodeContext),
        decodeData bo ctx input = .ok (out, ctxF, left) →
        ctx.arr.length = 64 → ctxF.arr.length = 64) := by
  refine ⟨fun byte h => ?_, hash_lt, fun bo ctx input out left ctxF hdec hlen => ?_⟩
  · omega
  · rw [decodeData_arr_length input.length input bo ctx out ctxF left le_rfl hdec]
    exact hlen

theorem decoder_array_access_in_bounds_witness :
    (0x15 : Nat) < 64 ∧ hash 0xF81F < 64 ∧
      (Q565DecodeContext.new.arr.length = 64 → Q565DecodeContext.new.arr.length = 64) := by
  refine ⟨decoder_array_access_in_bounds.1 0x15 (by decide),
    decoder_array_access_in_bounds.2.1 0xF81F, fun h => ?_⟩
  exact decoder_array_access_in_bounds.2.2 toWireLE .new [0xFF] [] [] .new (by decide) h

/-- Claim C4 (amended): during decoding, a DIFF opcode leaves the color array
unchanged; INDEX and RUN also leave it unchanged (they only read); and each
of LUMA, DIFF_INDEXED and RGB565 inserts the emitted pixel at its hash, so
`CA[hash(result)] = result` holds after exactly those opcodes.  Stated for
the streaming decoder one consumed byte at a time and for the block
decoder's opcode loop. -/
theorem color_array_update_policy (bo : Nat → Nat)
    (ctx : Q565StreamingDecodeContext) (dctx : Q565DecodeContext)
    (byte second : Nat) (rest : List Nat)
    (hlen : ctx.arr.length = 64) (hdlen : dctx.arr.length = 64) :
    (ctx.state = .Default → byte / 64 = 1 →
      (streamStep bo ctx byte).2.1.arr = ctx.arr) ∧
    (ctx.state = .Default → byte / 64 = 0 →
      (streamStep bo ctx byte).2.1.arr = ctx.arr) ∧
    (ctx.state = .Default → byte / 64 = 3 → byte ≠ 0xFE →
      (streamStep bo ctx byte).2.1.arr = ctx.arr) ∧
    (∀ b1, ctx.state = .LumaOrDiffIndexedByte2 b1 →
      ∃ result, (streamStep bo ctx byte).1 = [bo result] ∧
        (streamStep bo ctx byte).2.1.arr.getD (hash result) 0 = result) ∧
    (∀ b1, ctx.state = .RawRgb565Byte2 b1 →
      ∃ result, (streamStep bo ctx byte).1 = [bo result] ∧
        (streamStep bo ctx byte).2.1.arr.getD (hash result) 0 = result) ∧
    (byte / 64 = 1 → ∃ p, decodeData bo dctx (byte :: rest) =
      prependOut [bo p] (decodeData bo { prev := p, arr := dctx.arr } rest)) ∧
    (byte / 64 = 0 → ∃ p, decodeData bo dctx (byte :: rest) =
      prependOut [bo p] (decodeData bo { prev := p, arr := dctx.arr } rest)) ∧
    (byte / 64 = 3 → byte ≠ 0xFE → byte ≠ 0xFF →
      decodeData bo dctx (byte :: rest) =
        prependOut (List.replicate (byte % 64 + 1) (bo dctx.prev))
          (decodeData bo dctx rest)) ∧
    (byte / 64 = 2 → ∃ p, decodeData bo dctx (byte :: second :: rest) =
      prependOut [bo p]
        (decodeData bo { prev := p, arr := dctx.arr.set (hash p) p } rest) ∧
      (dctx.arr.set (hash p) p).getD (hash p) 0 = p) ∧
    (∃ p, decodeData bo dctx (0xFE :: byte :: second :: rest) =
      prependOut [bo p]
        (decodeData bo { prev := p, arr := dctx.arr.set (hash p) p } rest) ∧
      (dctx.arr.set (hash p) p).getD (hash p) 0 = p) := by
  obtain ⟨st, p0, a0⟩ := ctx
  simp only at hlen
  refine ⟨?_, ?_, ?_, ?_, ?_, ?_, ?_, ?_, ?_, ?_⟩
  · intro hst h
    simp only at hst
    subst hst
    simp [streamStep, h]
  · intro hst h
    simp only at hst
    subst hst
    simp [streamStep, h]
  · intro hst h hfe
    simp only at hst
    subst hst
    simp only [streamStep, h, hfe]
    norm_num
    split <;> simp
  · intro b1 hst
    simp only at hst
    subst hst
    refine ⟨if b1 / 32 = 4 then direct_bigger_diff p0 b1 byte
      else indexed_diff a0 b1 byte, ?_, ?_⟩
    · simp [streamStep]
    · simp only [streamStep]
      exact getD_set_eq _ _ _ _ (by rw [hlen]; exact hash_lt _)
  · intro b1 hst
    simp only at hst
    subst hst
    refine ⟨b1 + 256 * byte, ?_, ?_⟩
    · simp [streamStep]
    · simp only [streamStep]
      exact getD_set_eq _ _ _ _ (by rw [hlen]; exact hash_lt _)
  · intro h
    exact ⟨direct_small_diff dctx.prev byte, decodeData_diff bo dctx byte rest h⟩
  · intro h
    exact ⟨dctx.arr.getD byte 0, decodeData_index bo dctx byte rest h⟩
  · intro h hfe hff
    exact decodeData_run bo dctx byte rest h hfe hff
  · intro h
    by_cases h2 : byte % 64 < 32
    · exact ⟨direct_bigger_diff dctx.prev byte second,
        decodeData_luma bo dctx byte second rest h h2,
        getD_set_eq _ _ _ _ (by rw [hdlen]; exact hash_lt _)⟩
    · exact ⟨indexed_diff dctx.arr byte second,
        decodeData_diff_indexed bo dctx byte second rest h h2,
        getD_set_eq _ _ _ _ (by rw [hdlen]; exact hash_lt _)⟩
  · exact ⟨byte + 256 * second, decodeData_rgb565 bo dctx byte second rest,
      getD_set_eq _ _ _ _ (by rw [hdlen]; exact hash_lt _)⟩

/-- Claim C4 (counterexample): on the valid stream
`"q565" 02 00 01 00 6F C0 FF` (the encoding of `[0x0021, 0x0021]`), the last
pixel-producing opcode is a RUN whose result is `0x0021`, yet the color array
after decoding is still all zeros: `CA[hash(0x0021)] = 0 ≠ 0x0021`, because
the preceding DIFF did not insert and RUN never writes to the array. -/
theorem color_array_update_policy_counterexample :
    Q565DecodeContext.decode_to_vec_with_state toWireLE .new
        [0x71, 0x35, 0x36, 0x35, 0x02, 0x00, 0x01, 0x00, 0x6F, 0xC0, 0xFF] =
      .ok (⟨2, 1⟩, [0x21, 0x21], ⟨0x21, List.replicate 64 0⟩) ∧
    streamStep toWireLE ⟨.Default, 0x21, List.replicate 64 0⟩ 0xC0 =
      ([0x21], ⟨.Default, 0x21, List.replicate 64 0⟩, false) ∧
    (List.replicate 64 0 : List Nat).getD (hash 0x21) 0 ≠ 0x21 :=
  ⟨by decide, by decide, by decide⟩

theorem color_array_update_policy_witness :
    (streamStep toWireLE Q565StreamingDecodeContext.new 0x45).2.1.arr =
      Q565StreamingDecodeContext.new.arr :=
  (color_array_update_policy toWireLE .new .new 0x45 0 [] (by decide)
    (by decide)).1 rfl (by decide)

theorem takeWhile_replicate_append (a : Nat) (k : Nat) (rest : List Nat)
    (h : ∀ x, rest.head? = some x → x ≠ a) :
    (List.replicate k a ++ rest).takeWhile (fun p => p = a) = List.replicate k a := by
  induction k with
  | zero =>
    simp only [List.replicate, List.nil_append]
    cases rest with
    | nil => simp
    | cons x t =>
      have hx : x ≠ a := h x rfl
      simp [List.takeWhile, hx]
  | succ k ih =>
    rw [List.replicate_succ, List.cons_append, List.takeWhile_cons]
    simp [ih, List.replicate_succ]

/-- Claim C5: a maximal run of `L ≥ 1` pixels equal to `PREV` is emitted as
`⌊L/62⌋` full-run bytes `0xFD` followed, when `L mod 62 > 0`, by one byte
`0xC0 | ((L mod 62) - 1)`, with no other bytes for the run, and the encoder
context (`PREV`, the color array, the cached components) is unchanged: the
remaining pixels are encoded from the same context. -/
theorem run_chunking (ctx : Q565EncodeContext) (L : Nat) (rest : List Nat)
    (hL : 1 ≤ L) (hrest : ∀ x, rest.head? = some x → x ≠ ctx.prev) :
    encodeLoop ctx (List.replicate L ctx.prev ++ rest) =
      (List.replicate (L / 62) 0xFD ++
        (if L % 62 > 0 then [0xC0 ||| (L % 62 - 1)] else []) ++
        (encodeLoop ctx rest).1, (encodeLoop ctx rest).2) := by
  obtain ⟨k, rfl⟩ : ∃ k, L = k + 1 := ⟨L - 1, by omega⟩
  rw [List.replicate_succ, List.cons_append, encodeLoop.eq_def]
  dsimp only
  rw [if_pos rfl]
  rw [takeWhile_replicate_append _ _ _ hrest]
  simp only [List.length_replicate]
  rw [List.drop_left' (List.length_replicate k ctx.prev)]
  rcases hrec : encodeLoop ctx rest with ⟨o, c⟩
  simp only [List.append_assoc]
  norm_num
  exact Or.inr (by decide)

theorem run_chunking_witness :
    encodeLoop .new (List.replicate 63 Q565EncodeContext.new.prev ++ [1]) =
      (List.replicate (63 / 62) 0xFD ++
        (if 63 % 62 > 0 then [0xC0 ||| (63 % 62 - 1)] else []) ++
        (encodeLoop .new [1]).1, (encodeLoop .new [1]).2) :=
  run_chunking .new 63 [1] (by decide)
    (by intro x hx; injection hx with h; subst h; decide)

/-- The two per-pixel encoder loops agree byte for byte and state for state
(`Q565_OP_RUN | (62-1)` is the literal `0b1100_0000 | (62-1)` and
`Q565_OP_INDEX | hash` is `hash`). -/
theorem encodeLoopW_eq_encodeLoop : ∀ (n : Nat) (pixels : List Nat)
    (ctx : Q565EncodeContext), pixels.length ≤ n →
    encodeLoopW ctx pixels = encodeLoop ctx pixels := by
  intro n
  induction n with
  | zero =>
    intro pixels ctx hlen
    cases pixels with
    | nil => rw [encodeLoopW.eq_def, encodeLoop.eq_def]
    | cons p t => simp at hlen
  | succ n ih =>
    intro pixels ctx hlen
    obtain ⟨cprev, ⟨r1, g1, b1⟩, carr, carrc⟩ := ctx
    cases pixels with
    | nil => rw [encodeLoopW.eq_def, encodeLoop.eq_def]
    | cons pixel rest =>
      rw [encodeLoopW.eq_def, encodeLoop.eq_def]
      dsimp only
      by_cases hrun : pixel = cprev
      · rw [if_pos hrun, if_pos hrun,
          ih (rest.drop (rest.takeWhile (fun p => p = cprev)).length) _
            (by simp only [List.length_drop]; simp at hlen; omega)]
        norm_num [Q565_OP_RUN]
      · rw [if_neg hrun, if_neg hrun]
        rcases hdec : decode_565 pixel with ⟨r, g, b⟩
        dsimp only
        have hr : rest.length ≤ n := by simp at hlen; omega
        by_cases hidx : carr.getD (hash pixel) 0 = pixel
        · rw [if_pos hidx, if_pos hidx, ih rest _ hr]
          simp only [Q565_OP_INDEX, Nat.zero_or]
        · rw [if_neg hidx, if_neg hidx]
          by_cases hfit : -2 ≤ diff_n 5 r r1 ∧ diff_n 5 r r1 ≤ 1 ∧
              -2 ≤ diff_n 6 g g1 ∧ diff_n 6 g g1 ≤ 1 ∧
              -2 ≤ diff_n 5 b b1 ∧ diff_n 5 b b1 ≤ 1
          · rw [if_pos hfit, if_pos hfit, ih rest _ hr]
          · rw [if_neg hfit, if_neg hfit, ih rest _ hr]

/-- Claim C3: for every width, height and pixel sequence, the allocating
encoder and the streaming-writer encoder (from fresh contexts) agree: one
succeeds exactly when the other does, and on success they produce
byte-identical streams (header, opcode bytes, end marker) and identical
final contexts. -/
theorem encoder_encoder_equivalence (width height : Nat) (pixels : List Nat)
    (out : List Nat) (ctxF : Q565EncodeContext) :
    Q565EncodeContext.encode_with_state .new width height pixels = .ok (out, ctxF) ↔
      Q565EncodeContext.encode_to_vec_with_state .new width height pixels =
        some (out, ctxF) := by
  rw [Q565EncodeContext.encode_with_state, Q565EncodeContext.encode_to_vec_with_state]
  by_cases hdim : width * height ≠ pixels.length
  · rw [if_pos hdim, if_pos hdim]
    simp
  · rw [if_neg hdim, if_neg hdim]
    rw [Q565EncodeContext.encode_pixels, Q565EncodeContext.encode_header]
    rw [encodeLoopW_eq_encodeLoop pixels.length pixels .new le_rfl]
    rcases hrec : encodeLoop .new pixels with ⟨o, c⟩
    simp only [u16le, Q565_OP_END, Except.ok.injEq, Option.some.injEq, Prod.mk.injEq,
      List.append_assoc]

/-! ## Streaming-decoder lemmas -/

@[simp] theorem streamingDecode_nil (bo : Nat → Nat)
    (ctx : Q565StreamingDecodeContext) :
    streamingDecode bo ctx [] = ([], ctx, [], false) := by
  rw [streamingDecode.eq_def]

/-- Stepping equation: the END opcode ends the call, leaving the rest of the
chunk unconsumed. -/
theorem streamingDecode_cons_ended (bo : Nat → Nat)
    (ctx : Q565StreamingDecodeContext) (byte : Nat) (rest out : List Nat)
    (ctx1 : Q565StreamingDecodeContext)
    (h : streamStep bo ctx byte = (out, ctx1, true)) :
    streamingDecode bo ctx (byte :: rest) = (out, ctx1, rest, true) := by
  rw [streamingDecode.eq_def]
  dsimp only
  rw [h]

/-- Stepping equation: a non-END byte contributes its pixels and the loop
continues from the stepped context. -/
theorem streamingDecode_cons_step (bo : Nat → Nat)
    (ctx : Q565StreamingDecodeContext) (byte : Nat) (rest out : List Nat)
    (ctx1 : Q565StreamingDecodeContext)
    (h : streamStep bo ctx byte = (out, ctx1, false)) :
    streamingDecode bo ctx (byte :: rest) =
      (out ++ (streamingDecode bo ctx1 rest).1, (streamingDecode bo ctx1 rest).2) := by
  rw [streamingDecode.eq_def]
  dsimp only
  rw [h]

/-- When a call returns because the input ran out (not END), it has consumed
every byte of the chunk. -/
theorem streamingDecode_not_ended (bo : Nat → Nat) :
    ∀ (input : List Nat) (ctx : Q565StreamingDecodeContext),
    (streamingDecode bo ctx input).2.2.2 = false →
    (streamingDecode bo ctx input).2.2.1 = [] := by
  intro input
  induction input with
  | nil => intro ctx h; rfl
  | cons byte rest ih =>
    intro ctx h
    rcases hstep : streamStep bo ctx byte with ⟨out, ctx1, ended⟩
    cases ended with
    | true => rw [streamingDecode_cons_ended bo ctx byte rest out ctx1 hstep] at h; simp at h
    | false =>
      rw [streamingDecode_cons_step bo ctx byte rest out ctx1 hstep] at h ⊢
      exact ih ctx1 h

theorem streamingDecode_append_ended (bo : Nat → Nat) :
    ∀ (a : List Nat) (ctx : Q565StreamingDecodeContext) (b : List Nat),
    (streamingDecode bo ctx a).2.2.2 = true →
    streamingDecode bo ctx (a ++ b) =
      ((streamingDecode bo ctx a).1, (streamingDecode bo ctx a).2.1,
        (streamingDecode bo ctx a).2.2.1 ++ b, true) := by
  intro a
  induction a with
  | nil => intro ctx b h; simp at h
  | cons byte rest ih =>
    intro ctx b h
    rcases hstep : streamStep bo ctx byte with ⟨out, ctx1, ended⟩
    rw [List.cons_append]
    cases ended with
    | true =>
      rw [streamingDecode_cons_ended bo ctx byte rest out ctx1 hstep,
        streamingDecode_cons_ended bo ctx byte (rest ++ b) out ctx1 hstep]
    | false =>
      rw [streamingDecode_cons_step bo ctx byte rest out ctx1 hstep] at h ⊢
      rw [streamingDecode_cons_step bo ctx byte (rest ++ b) out ctx1 hstep]
      rw [ih ctx1 b h]

theorem streamingDecode_append_not_ended (bo : Nat → Nat) :
    ∀ (a : List Nat) (ctx : Q565StreamingDecodeContext) (b : List Nat),
    (streamingDecode bo ctx a).2.2.2 = false →
    streamingDecode bo ctx (a ++ b) =
      ((streamingDecode bo ctx a).1 ++
          (streamingDecode bo (streamingDecode bo ctx a).2.1 b).1,
        (streamingDecode bo (streamingDecode bo ctx a).2.1 b).2) := by
  intro a
  induction a with
  | nil => intro ctx b h; simp
  | cons byte rest ih =>
    intro ctx b h
    rcases hstep : streamStep bo ctx byte with ⟨out, ctx1, ended⟩
    rw [List.cons_append]
    cases ended with
    | true =>
      rw [streamingDecode_cons_ended bo ctx byte rest out ctx1 hstep] at h
      simp at h
    | false =>
      rw [streamingDecode_cons_step bo ctx byte rest out ctx1 hstep] at h ⊢
      rw [streamingDecode_cons_step bo ctx byte (rest ++ b) out ctx1 hstep]
      rw [ih ctx1 b h]
      simp

/-- Feeding only empty chunks produces nothing. -/
theorem feedChunks_all_nil (bo : Nat → Nat) :
    ∀ (chunks : List (List Nat)) (ctx : Q565StreamingDecodeContext),
    (∀ c ∈ chunks, c = []) → feedChunks bo ctx chunks = ([], ctx) := by
  intro chunks
  induction chunks with
  | nil => intro ctx h; rfl
  | cons c cs ih =>
    intro ctx h
    rw [feedChunks.eq_def]
    dsimp only
    rw [h c (by simp), streamingDecode_nil]
    dsimp only
    rw [ih ctx (fun x hx => h x (by simp [hx]))]
    simp

/-- However the input is chunked, the concatenated per-call outputs of the
streaming decoder equal the output of one call on the whole input, provided
that the single whole-input call ends at the END opcode having consumed
everything. -/
theorem feedChunks_eq_whole (bo : Nat → Nat) :
    ∀ (chunks : List (List Nat)) (ctx : Q565StreamingDecodeContext),
    (streamingDecode bo ctx chunks.flatten).2.2.2 = true →
    (streamingDecode bo ctx chunks.flatten).2.2.1 = [] →
    (feedChunks bo ctx chunks).1 = (streamingDecode bo ctx chunks.flatten).1 := by
  intro chunks
  induction chunks with
  | nil =>
    intro ctx hend hrest
    simp at hend
  | cons c cs ih =>
    intro ctx hend hrest
    rw [List.flatten_cons] at hend hrest ⊢
    rcases h1 : streamingDecode bo ctx c with ⟨o1, c1, r1, e1⟩
    cases e1 with
    | true =>
      have happ := streamingDecode_append_ended bo c ctx cs.flatten (by rw [h1])
      rw [happ, h1] at hrest
      dsimp only at hrest
      obtain ⟨hr1, hflat⟩ := List.append_eq_nil.mp hrest
      rw [feedChunks.eq_def]
      dsimp only
      rw [h1]
      dsimp only
      rw [feedChunks_all_nil bo cs c1 (List.flatten_eq_nil_iff.mp hflat)]
      rw [happ, h1]
      simp
    | false =>
      have hr1 : r1 = [] := by
        have h2 := streamingDecode_not_ended bo c ctx (by rw [h1])
        rw [h1] at h2
        exact h2
      have happ := streamingDecode_append_not_ended bo c ctx cs.flatten (by rw [h1])
      rw [happ, h1] at hend hrest ⊢
      dsimp only at hend hrest ⊢
      rw [feedChunks.eq_def]
      dsimp only
      rw [h1]
      dsimp only
      rw [ih c1 hend hrest]

/-! ## `streamStep` evaluation lemmas -/

theorem streamStep_default_index (bo : Nat → Nat) (p : Nat) (a : List Nat)
    (byte : Nat) (h : byte / 64 = 0) :
    streamStep bo ⟨.Default, p, a⟩ byte =
      ([bo (a.getD byte 0)], ⟨.Default, a.getD byte 0, a⟩, false) := by
  simp [streamStep, h]

theorem streamStep_default_diff (bo : Nat → Nat) (p : Nat) (a : List Nat)
    (byte : Nat) (h : byte / 64 = 1) :
    streamStep bo ⟨.Default, p, a⟩ byte =
      ([bo (direct_small_diff p byte)], ⟨.Default, direct_small_diff p byte, a⟩,
        false) := by
  simp [streamStep, h]

theorem streamStep_default_twobyte (bo : Nat → Nat) (p : Nat) (a : List Nat)
    (byte : Nat) (h : byte / 64 = 2) :
    streamStep bo ⟨.Default, p, a⟩ byte =
      ([], ⟨.LumaOrDiffIndexedByte2 byte, p, a⟩, false) := by
  simp [streamStep, h]

theorem streamStep_default_fe (bo : Nat → Nat) (p : Nat) (a : List Nat) :
    streamStep bo ⟨.Default, p, a⟩ 0xFE = ([], ⟨.RawRgb565Byte1, p, a⟩, false) := by
  simp [streamStep]

theorem streamStep_default_run (bo : Nat → Nat) (p : Nat) (a : List Nat)
    (byte : Nat) (h0 : byte / 64 ≠ 0) (h1 : byte / 64 ≠ 1) (h2 : byte / 64 ≠ 2)
    (hfe : byte ≠ 0xFE) (hff : byte ≠ 0xFF) :
    streamStep bo ⟨.Default, p, a⟩ byte =
      (List.replicate (byte % 64 + 1) (bo p), ⟨.Default, p, a⟩, false) := by
  simp [streamStep, h0, h1, h2, hfe, hff]

theorem streamStep_default_end (bo : Nat → Nat) (p : Nat) (a : List Nat) :
    streamStep bo ⟨.Default, p, a⟩ 0xFF = ([], ⟨.Default, p, a⟩, true) := by
  simp [streamStep]

theorem streamStep_luma2_bigger (bo : Nat → Nat) (p : Nat) (a : List Nat)
    (b1 byte : Nat) (h : b1 / 32 = 4) :
    streamStep bo ⟨.LumaOrDiffIndexedByte2 b1, p, a⟩ byte =
      ([bo (direct_bigger_diff p b1 byte)],
        ⟨.Default, direct_bigger_diff p b1 byte,
          a.set (hash (direct_bigger_diff p b1 byte)) (direct_bigger_diff p b1 byte)⟩,
        false) := by
  simp [streamStep, h]

theorem streamStep_luma2_indexed (bo : Nat → Nat) (p : Nat) (a : List Nat)
    (b1 byte : Nat) (h : b1 / 32 ≠ 4) :
    streamStep bo ⟨.LumaOrDiffIndexedByte2 b1, p, a⟩ byte =
      ([bo (indexed_diff a b1 byte)],
        ⟨.Default, indexed_diff a b1 byte,
          a.set (hash (indexed_diff a b1 byte)) (indexed_diff a b1 byte)⟩,
        false) := by
  simp [streamStep, h]

theorem streamStep_raw1 (bo : Nat → Nat) (p : Nat) (a : List Nat) (byte : Nat) :
    streamStep bo ⟨.RawRgb565Byte1, p, a⟩ byte =
      ([], ⟨.RawRgb565Byte2 byte, p, a⟩, false) := by
  simp [streamStep]

theorem streamStep_raw2 (bo : Nat → Nat) (p : Nat) (a : List Nat) (b1 byte : Nat) :
    streamStep bo ⟨.RawRgb565Byte2 b1, p, a⟩ byte =
      ([bo (b1 + 256 * byte)],
        ⟨.Default, b1 + 256 * byte,
          a.set (hash (b1 + 256 * byte)) (b1 + 256 * byte)⟩, false) := by
  simp [streamStep]

/-- A run-opcode step of the block decoder reached through the final dispatch
arm (`byte >> 6` not 0, 1 or 2; not `0xFE`; not `0xFF`). -/
theorem decodeData_run2 (bo : Nat → Nat) (ctx : Q565DecodeContext) (byte : Nat)
    (rest : List Nat) (h0 : byte / 64 ≠ 0) (h1 : byte / 64 ≠ 1)
    (h2 : byte / 64 ≠ 2) (hfe : byte ≠ 0xFE) (hff : byte ≠ 0xFF) :
    decodeData bo ctx (byte :: rest) =
      prependOut (List.replicate (byte % 64 + 1) (bo ctx.prev))
        (decodeData bo ctx rest) := by
  rw [decodeData.eq_def]
  simp [h0, h1, h2, hfe, hff]

/-- For every input byte sequence on which the block decoder succeeds, the
streaming decoder started in the `Default` state from the same `prev` and
color array produces the same pixels, reaches the same `prev` and color
array back in the `Default` state, stops because of the END opcode, and
leaves the same suffix unconsumed. -/
theorem streaming_matches_block : ∀ (n : Nat) (input : List Nat),
    input.length ≤ n →
    ∀ (bo : Nat → Nat) (d dF : Q565DecodeContext) (out left : List Nat),
    decodeData bo d input = .ok (out, dF, left) →
    streamingDecode bo ⟨.Default, d.prev, d.arr⟩ input =
      (out, ⟨.Default, dF.prev, dF.arr⟩, left, true) := by
  intro n
  induction n with
  | zero =>
    intro input hlen bo d dF out left hdec
    cases input with
    | nil =>
      rw [decodeData.eq_def] at hdec
      exact absurd hdec (by simp)
    | cons b t => simp at hlen
  | succ n ih =>
    intro input hlen bo d dF out left hdec
    match input with
    | [] =>
      rw [decodeData.eq_def] at hdec
      exact absurd hdec (by simp)
    | byte :: rest =>
      have hlen2 : rest.length ≤ n := by simp at hlen; omega
      by_cases h0 : byte / 64 = 0
      · rw [decodeData_index bo d byte rest h0, prependOut_ok_iff] at hdec
        obtain ⟨o2, hrec, hout⟩ := hdec
        subst hout
        rw [streamingDecode_cons_step bo _ byte rest _ _
          (streamStep_default_index bo d.prev d.arr byte h0)]
        rw [ih rest hlen2 bo ⟨d.arr.getD byte 0, d.arr⟩ dF o2 left hrec]
      · by_cases h1 : byte / 64 = 1
        · rw [decodeData_diff bo d byte rest h1, prependOut_ok_iff] at hdec
          obtain ⟨o2, hrec, hout⟩ := hdec
          subst hout
          rw [streamingDecode_cons_step bo _ byte rest _ _
            (streamStep_default_diff bo d.prev d.arr byte h1)]
          rw [ih rest hlen2 bo ⟨direct_small_diff d.prev byte, d.arr⟩ dF o2 left hrec]
        · by_cases h2 : byte / 64 = 2
          · match rest with
            | [] =>
              rw [decodeData.eq_def] at hdec
              exact absurd hdec (by simp [h0, h1, h2])
            | second :: rest2 =>
              have hlen3 : rest2.length ≤ n := by simp at hlen; omega
              rw [streamingDecode_cons_step bo _ byte (second :: rest2) _ _
                (streamStep_default_twobyte bo d.prev d.arr byte h2)]
              by_cases hlt : byte % 64 < 32
              · rw [decodeData_luma bo d byte second rest2 h2 hlt,
                  prependOut_ok_iff] at hdec
                obtain ⟨o2, hrec, hout⟩ := hdec
                subst hout
                rw [streamingDecode_cons_step bo _ second rest2 _ _
                  (streamStep_luma2_bigger bo d.prev d.arr byte second (by omega))]
                rw [ih rest2 hlen3 bo
                  ⟨direct_bigger_diff d.prev byte second,
                    d.arr.set (hash (direct_bigger_diff d.prev byte second))
                      (direct_bigger_diff d.prev byte second)⟩ dF o2 left hrec]
                rfl
              · rw [decodeData_diff_indexed bo d byte second rest2 h2 hlt,
                  prependOut_ok_iff] at hdec
                obtain ⟨o2, hrec, hout⟩ := hdec
                subst hout
                rw [streamingDecode_cons_step bo _ second rest2 _ _
                  (streamStep_luma2_indexed bo d.prev d.arr byte second (by omega))]
                rw [ih rest2 hlen3 bo
                  ⟨indexed_diff d.arr byte second,
                    d.arr.set (hash (indexed_diff d.arr byte second))
                      (indexed_diff d.arr byte second)⟩ dF o2 left hrec]
                rfl
          · by_cases hfe : byte = 0xFE
            · subst hfe
              match rest with
              | [] =>
                rw [decodeData.eq_def] at hdec
                exact absurd hdec (by simp)
              | [lo] =>
                rw [decodeData.eq_def] at hdec
                exact absurd hdec (by simp)
              | lo :: hi :: rest3 =>
                have hlen3 : rest3.length ≤ n := by simp at hlen; omega
                rw [decodeData_rgb565 bo d lo hi rest3, prependOut_ok_iff] at hdec
                obtain ⟨o2, hrec, hout⟩ := hdec
                subst hout
                rw [streamingDecode_cons_step bo _ 0xFE (lo :: hi :: rest3) _ _
                  (streamStep_default_fe bo d.prev d.arr)]
                rw [streamingDecode_cons_step bo _ lo (hi :: rest3) _ _
                  (streamStep_raw1 bo d.prev d.arr lo)]
                rw [streamingDecode_cons_step bo _ hi rest3 _ _
                  (streamStep_raw2 bo d.prev d.arr lo hi)]
                rw [ih rest3 hlen3 bo
                  ⟨lo + 256 * hi, d.arr.set (hash (lo + 256 * hi)) (lo + 256 * hi)⟩
                  dF o2 left hrec]
                rfl
            · by_cases hff : byte = 0xFF
              · subst hff
                rw [decodeData_end] at hdec
                simp only [Except.ok.injEq, Prod.mk.injEq] at hdec
                obtain ⟨ho, hd, hl⟩ := hdec
                subst ho hd hl
                exact streamingDecode_cons_ended bo _ 0xFF rest _ _
                  (streamStep_default_end bo d.prev d.arr)
              · rw [decodeData_run2 bo d byte rest h0 h1 h2 hfe hff,
                  prependOut_ok_iff] at hdec
                obtain ⟨o2, hrec, hout⟩ := hdec
                subst hout
                rw [streamingDecode_cons_step bo _ byte rest _ _
                  (streamStep_default_run bo d.prev d.arr byte h0 h1 h2 hfe hff)]
                rw [ih rest hlen2 bo d dF o2 left hrec]

/-- Claim C2: for every valid encoded data stream (one the block decoder
decodes from a fresh context, reaching END having consumed every byte) and
every partition of its bytes into chunks, feeding the chunks one call at a
time to the streaming decoder from a fresh context — the caller advancing
the output by each call's returned pixel count, i.e. concatenating the
per-call outputs — yields exactly the block decoder's pixel sequence, with
identical total pixel count, for the same byte-order parameter `bo`. -/
theorem streaming_block_chunk_equivalence (bo : Nat → Nat)
    (chunks : List (List Nat)) (pixels : List Nat) (dF : Q565DecodeContext)
    (hne : ∀ c ∈ chunks, c ≠ [])
    (hdec : decodeData bo Q565DecodeContext.new chunks.flatten =
      .ok (pixels, dF, [])) :
    (feedChunks bo Q565StreamingDecodeContext.new chunks).1 = pixels ∧
      (feedChunks bo Q565StreamingDecodeContext.new chunks).1.length =
        pixels.length := by
  have hB : streamingDecode bo Q565StreamingDecodeContext.new chunks.flatten =
      (pixels, ⟨.Default, dF.prev, dF.arr⟩, [], true) :=
    streaming_matches_block chunks.flatten.length chunks.flatten le_rfl bo
      .new dF pixels [] hdec
  have hout := feedChunks_eq_whole bo chunks .new (by rw [hB]) (by rw [hB])
  rw [hB] at hout
  exact ⟨hout, by rw [hout]⟩

theorem streaming_block_chunk_equivalence_witness :
    (feedChunks toWireLE Q565StreamingDecodeContext.new [[0x6F], [0xC0, 0xFF]]).1 =
        [0x21, 0x21] ∧
      (feedChunks toWireLE Q565StreamingDecodeContext.new
        [[0x6F], [0xC0, 0xFF]]).1.length = ([0x21, 0x21] : List Nat).length :=
  streaming_block_chunk_equivalence toWireLE [[0x6F], [0xC0, 0xFF]] [0x21, 0x21]
    ⟨0x21, List.replicate 64 0⟩ (by decide) (by decide)

/-! ## Round-trip infrastructure -/

@[simp] theorem toWireLE_eq (n : Nat) : toWireLE n = n := rfl

/-- Internal consistency of the encoder context: the cached components are
the decodings of `prev` and of the color-array entries, and both arrays have
64 entries. -/
def EncInv (e : Q565EncodeContext) : Prop :=
  e.prev_components = decode_565 e.prev ∧
    e.arr.length = 64 ∧ e.arr_components.length = 64 ∧
    ∀ i, i < 64 → e.arr_components.getD i (0, 0, 0) = decode_565 (e.arr.getD i 0)

theorem encInv_new : EncInv .new := by
  refine ⟨rfl, by simp [Q565EncodeContext.new], by simp [Q565EncodeContext.new],
    fun i hi => ?_⟩
  simp only [Q565EncodeContext.new, List.getD_eq_getElem?_getD,
    List.getElem?_replicate, hi, if_pos, Option.getD_some]
  decide

/-- Inversion of the DIFF_INDEXED scan: success names a slot whose diffs fit
and fixes both opcode bytes. -/
theorem diffIndexedScan_some : ∀ (comps : List (Nat × Nat × Nat)) (i0 r g b : Nat)
    (bs : List Nat), diffIndexedScan r g b comps i0 = some bs →
    ∃ j ra ga ba, j < comps.length ∧ comps.getD j (0, 0, 0) = (ra, ga, ba) ∧
      -2 ≤ diff_n 5 r ra ∧ diff_n 5 r ra ≤ 1 ∧
      -4 ≤ diff_n 6 g ga ∧ diff_n 6 g ga ≤ 3 ∧
      -2 ≤ diff_n 5 b ba ∧ diff_n 5 b ba ≤ 1 ∧
      bs = [Q565_OP_DIFF_INDEXED ||| ((diff_n 6 g ga + 4).toNat <<< 2) |||
              (diff_n 5 r ra + 2).toNat,
            ((diff_n 5 b ba + 2).toNat <<< 6) ||| (i0 + j)] := by
  intro comps
  induction comps with
  | nil => intro i0 r g b bs h; exact absurd h (by simp [diffIndexedScan])
  | cons hd tl ih =>
    intro i0 r g b bs h
    obtain ⟨ra, ga, ba⟩ := hd
    rw [diffIndexedScan] at h
    by_cases hfit : -2 ≤ diff_n 5 r ra ∧ diff_n 5 r ra ≤ 1 ∧
        -4 ≤ diff_n 6 g ga ∧ diff_n 6 g ga ≤ 3 ∧
        -2 ≤ diff_n 5 b ba ∧ diff_n 5 b ba ≤ 1
    · rw [if_pos hfit] at h
      obtain ⟨h1, h2, h3, h4, h5, h6⟩ := hfit
      refine ⟨0, ra, ga, ba, by simp, rfl, h1, h2, h3, h4, h5, h6, ?_⟩
      simp only [Option.some.injEq] at h
      rw [← h]
      simp
    · rw [if_neg hfit] at h
      obtain ⟨j, ra2, ga2, ba2, hj, hget, hb1, hb2, hb3, hb4, hb5, hb6, hbs⟩ :=
        ih (i0 + 1) r g b bs h
      refine ⟨j + 1, ra2, ga2, ba2, by simpa using Nat.succ_lt_succ hj, ?_,
        hb1, hb2, hb3, hb4, hb5, hb6, ?_⟩
      · simpa using hget
      · rw [hbs]
        have hidx : i0 + 1 + j = i0 + (j + 1) := by omega
        rw [hidx]

/-- Decoding the run bytes the encoder emits for a run of `62 * k + c`
pixels (with `c < 62`) yields that many copies of `prev` and leaves the
context untouched. -/
theorem decodeData_run_chain : ∀ (k : Nat) (c : Nat), c < 62 →
    ∀ (bo : Nat → Nat) (d : Q565DecodeContext) (rest : List Nat),
    decodeData bo d (List.replicate k (0xC0 ||| (62 - 1)) ++
        (if c > 0 then [0xC0 ||| (c - 1)] else []) ++ rest) =
      prependOut (List.replicate (62 * k + c) (bo d.prev)) (decodeData bo d rest) := by
  intro k
  induction k with
  | zero =>
    intro c hc bo d rest
    by_cases hc0 : c > 0
    · rw [if_pos hc0]
      simp only [List.replicate, List.nil_append, List.cons_append, List.nil_append]
      obtain ⟨hf1, hf2, hf3, hf4, -⟩ := run_byte_fields (c - 1) (by omega)
      rw [decodeData_run bo d _ rest hf1 hf2 hf3]
      rw [hf4]
      congr 2
      omega
    · rw [if_neg hc0]
      have hc' : c = 0 := by omega
      subst hc'
      simp
  | succ k ih =>
    intro c hc bo d rest
    rw [List.replicate_succ, List.cons_append, List.cons_append]
    obtain ⟨hf1, hf2, hf3, hf4, -⟩ := run_byte_fields (62 - 1) (by omega)
    rw [decodeData_run bo d _ _ hf1 hf2 hf3]
    rw [ih c hc bo d rest, prependOut_prependOut, hf4]
    congr 2
    rw [← List.replicate_add]
    congr 1
    omega

/-- `takeWhile (· = a)` only collects copies of `a`. -/
theorem takeWhile_eq_self_replicate (a : Nat) : ∀ (l : List Nat),
    l.takeWhile (fun p => p = a) =
      List.replicate (l.takeWhile (fun p => p = a)).length a := by
  intro l
  induction l with
  | nil => simp
  | cons x t ih =>
    by_cases hx : x = a
    · subst hx
      rw [List.takeWhile_cons]
      simp only [decide_True, if_true, List.length_cons, List.replicate_succ]
      congr 1
    · rw [List.takeWhile_cons]
      simp [hx]

/-- Dropping the collected run prefix is dropping the `takeWhile` prefix. -/
theorem drop_takeWhile_length {α : Type} (p : α → Bool) : ∀ (l : List α),
    l.drop (l.takeWhile p).length = l.dropWhile p := by
  intro l
  induction l with
  | nil => simp
  | cons x t ih =>
    by_cases hx : p x
    · rw [List.takeWhile_cons, if_pos hx, List.dropWhile_cons, if_pos hx,
        List.length_cons, List.drop_succ_cons]
      exact ih
    · rw [List.takeWhile_cons, if_neg hx, List.dropWhile_cons, if_neg hx]
      simp

/-- Inserting a pixel and its components at its hash preserves the encoder
invariant. -/
theorem encInv_set (pixel : Nat) (earr : List Nat)
    (ecomps : List (Nat × Nat × Nat)) (hlarr : earr.length = 64)
    (hlcomps : ecomps.length = 64)
    (hcomps : ∀ i, i < 64 → ecomps.getD i (0, 0, 0) = decode_565 (earr.getD i 0)) :
    (earr.set (hash pixel) pixel).length = 64 ∧
      (ecomps.set (hash pixel)
        (pixel / 2048 % 32, pixel / 32 % 64, pixel % 32)).length = 64 ∧
      ∀ i, i < 64 →
        (ecomps.set (hash pixel)
          (pixel / 2048 % 32, pixel / 32 % 64, pixel % 32)).getD i (0, 0, 0) =
          decode_565 ((earr.set (hash pixel) pixel).getD i 0) := by
  refine ⟨by simp [hlarr], by simp [hlcomps], fun i hi => ?_⟩
  by_cases hih : hash pixel = i
  · subst hih
    rw [getD_set_eq _ _ _ _ (by rw [hlcomps]; exact hash_lt _),
      getD_set_eq _ _ _ _ (by rw [hlarr]; exact hash_lt _)]
    rfl
  · rw [getD_set_ne _ _ _ hih, getD_set_ne _ _ _ hih]
    exact hcomps i hi

/-- Core round-trip invariant: decoding the bytes the encoder loop emits,
from the decoder state that mirrors the encoder state, produces exactly the
encoded pixels and ends in the decoder state mirroring the final encoder
state; the encoder-state consistency invariant is preserved. -/
theorem decode_encodeLoop : ∀ (n : Nat) (pixels : List Nat), pixels.length ≤ n →
    ∀ (e : Q565EncodeContext) (tail : List Nat),
    EncInv e → (∀ p ∈ pixels, p < 65536) →
    decodeData toWireLE ⟨e.prev, e.arr⟩ ((encodeLoop e pixels).1 ++ tail) =
      prependOut pixels
        (decodeData toWireLE
          ⟨(encodeLoop e pixels).2.prev, (encodeLoop e pixels).2.arr⟩ tail) ∧
      EncInv (encodeLoop e pixels).2 := by
  intro n
  induction n with
  | zero =>
    intro pixels hlen e tail hinv hp
    cases pixels with
    | nil =>
      rw [encodeLoop.eq_def]
      exact ⟨by simp, hinv⟩
    | cons p t => simp at hlen
  | succ n ih =>
    intro pixels hlen e tail hinv hp
    obtain ⟨eprev, ⟨pr, pg, pb⟩, earr, ecomps⟩ := e
    obtain ⟨hpc, hlarr, hlcomps, hcomps⟩ := hinv
    simp only at hpc hlarr hlcomps hcomps
    cases pixels with
    | nil =>
      rw [encodeLoop.eq_def]
      exact ⟨by simp, hpc, hlarr, hlcomps, hcomps⟩
    | cons pixel rest =>
      rw [encodeLoop.eq_def]
      dsimp only
      by_cases hrun : pixel = eprev
      · -- run branch
        subst hrun
        rw [if_pos rfl]
        rcases hrec : encodeLoop ⟨pixel, (pr, pg, pb), earr, ecomps⟩
            (rest.drop (rest.takeWhile (fun p => p = pixel)).length) with ⟨body2, e2⟩
        dsimp only
        obtain ⟨ih1, ih2⟩ := ih
          (rest.drop (rest.takeWhile (fun p => p = pixel)).length)
          (by simp only [List.length_drop]; simp at hlen; omega)
          ⟨pixel, (pr, pg, pb), earr, ecomps⟩ tail ⟨hpc, hlarr, hlcomps, hcomps⟩
          (fun q hq => hp q (List.mem_cons_of_mem _ (List.mem_of_mem_drop hq)))
        rw [hrec] at ih1 ih2
        dsimp only at ih1 ih2
        refine ⟨?_, ih2⟩
        rw [List.append_assoc]
        rw [decodeData_run_chain
          (((rest.takeWhile (fun p => p = pixel)).length + 1) / 62)
          (((rest.takeWhile (fun p => p = pixel)).length + 1) % 62)
          (by omega) toWireLE ⟨pixel, earr⟩ (body2 ++ tail)]
        rw [ih1, prependOut_prependOut]
        rw [Nat.div_add_mod]
        simp only [toWireLE_eq]
        congr 1
        rw [List.replicate_succ, List.cons_append]
        congr 1
        rw [drop_takeWhile_length]
        conv_rhs => rw [← List.takeWhile_append_dropWhile
          (fun p => decide (p = pixel)) rest]
        congr 1
        exact (takeWhile_eq_self_replicate pixel rest).symm
      · -- non-run branches
        rw [if_neg hrun]
        have hpx : pixel < 65536 := hp pixel (by simp)
        have hrestp : ∀ q ∈ rest, q < 65536 :=
          fun q hq => hp q (List.mem_cons_of_mem _ hq)
        have hlen2 : rest.length ≤ n := by simp at hlen; omega
        dsimp only [decode_565]
        by_cases hidx : earr.getD (hash pixel) 0 = pixel
        · -- INDEX
          rw [if_pos hidx]
          rcases hrec : encodeLoop
              ⟨pixel, (pixel / 2048 % 32, pixel / 32 % 64, pixel % 32), earr, ecomps⟩
              rest with ⟨body2, e2⟩
          dsimp only
          obtain ⟨ih1, ih2⟩ := ih rest hlen2
            ⟨pixel, (pixel / 2048 % 32, pixel / 32 % 64, pixel % 32), earr, ecomps⟩
            tail ⟨rfl, hlarr, hlcomps, hcomps⟩ hrestp
          rw [hrec] at ih1 ih2
          dsimp only at ih1 ih2
          refine ⟨?_, ih2⟩
          rw [List.cons_append]
          rw [decodeData_index toWireLE ⟨eprev, earr⟩ (hash pixel)
            (body2 ++ tail) (by have := hash_lt pixel; omega)]
          dsimp only
          rw [hidx, ih1, prependOut_prependOut]
          rfl
        · -- DIFF / LUMA / DIFF_INDEXED / RGB565
          rw [if_neg hidx]
          simp only [decode_565, Prod.mk.injEq] at hpc
          obtain ⟨hpr, hpg, hpb⟩ := hpc
          subst hpr hpg hpb
          by_cases hdiff : -2 ≤ diff_n 5 (pixel / 2048 % 32) (eprev / 2048 % 32) ∧
              diff_n 5 (pixel / 2048 % 32) (eprev / 2048 % 32) ≤ 1 ∧
              -2 ≤ diff_n 6 (pixel / 32 % 64) (eprev / 32 % 64) ∧
              diff_n 6 (pixel / 32 % 64) (eprev / 32 % 64) ≤ 1 ∧
              -2 ≤ diff_n 5 (pixel % 32) (eprev % 32) ∧
              diff_n 5 (pixel % 32) (eprev % 32) ≤ 1
          · -- DIFF
            rw [if_pos hdiff]
            rcases hrec : encodeLoop
                ⟨pixel, (pixel / 2048 % 32, pixel / 32 % 64, pixel % 32), earr, ecomps⟩
                rest with ⟨body2, e2⟩
            dsimp only
            obtain ⟨ih1, ih2⟩ := ih rest hlen2
              ⟨pixel, (pixel / 2048 % 32, pixel / 32 % 64, pixel % 32), earr, ecomps⟩
              tail ⟨rfl, hlarr, hlcomps, hcomps⟩ hrestp
            rw [hrec] at ih1 ih2
            dsimp only at ih1 ih2
            refine ⟨?_, ih2⟩
            rw [List.cons_append]
            obtain ⟨hd1, hd2, hd3, hd4, hd5, hd6⟩ := hdiff
            simp only [Q565_OP_DIFF]
            obtain ⟨hf1, hf2, hf3, hf4, -⟩ :=
              diff_byte_fields (diff_n 5 (pixel / 2048 % 32) (eprev / 2048 % 32) + 2).toNat
                (by omega) (diff_n 6 (pixel / 32 % 64) (eprev / 32 % 64) + 2).toNat
                (by omega) (diff_n 5 (pixel % 32) (eprev % 32) + 2).toNat (by omega)
            rw [decodeData_diff toWireLE ⟨eprev, earr⟩ _ (body2 ++ tail) hf1]
            have hpix : direct_small_diff eprev
                (0x40 ||| ((diff_n 5 (pixel / 2048 % 32) (eprev / 2048 % 32) + 2).toNat <<< 4) |||
                  ((diff_n 6 (pixel / 32 % 64) (eprev / 32 % 64) + 2).toNat <<< 2) |||
                  (diff_n 5 (pixel % 32) (eprev % 32) + 2).toNat) = pixel := by
              simp only [direct_small_diff]
              rw [hf2, hf3, hf4]
              have e1 : ((diff_n 5 (pixel / 2048 % 32) (eprev / 2048 % 32) + 2).toNat : Int) - 2 =
                  diff_n 5 (pixel / 2048 % 32) (eprev / 2048 % 32) := by omega
              have e2 : ((diff_n 6 (pixel / 32 % 64) (eprev / 32 % 64) + 2).toNat : Int) - 2 =
                  diff_n 6 (pixel / 32 % 64) (eprev / 32 % 64) := by omega
              have e3 : ((diff_n 5 (pixel % 32) (eprev % 32) + 2).toNat : Int) - 2 =
                  diff_n 5 (pixel % 32) (eprev % 32) := by omega
              rw [e1, e2, e3]
              exact apply_diff_round pixel eprev hpx
            rw [hpix, ih1, prependOut_prependOut]
            rfl
          · -- two-byte opcodes
            rw [if_neg hdiff]
            rcases hrec : encodeLoop
                ⟨pixel, (pixel / 2048 % 32, pixel / 32 % 64, pixel % 32),
                  earr.set (hash pixel) pixel,
                  ecomps.set (hash pixel)
                    (pixel / 2048 % 32, pixel / 32 % 64, pixel % 32)⟩
                rest with ⟨body2, e2⟩
            dsimp only
            obtain ⟨hs1, hs2, hs3⟩ := encInv_set pixel earr ecomps hlarr hlcomps hcomps
            obtain ⟨ih1, ih2⟩ := ih rest hlen2
              ⟨pixel, (pixel / 2048 % 32, pixel / 32 % 64, pixel % 32),
                earr.set (hash pixel) pixel,
                ecomps.set (hash pixel)
                  (pixel / 2048 % 32, pixel / 32 % 64, pixel % 32)⟩
              tail ⟨rfl, hs1, hs2, hs3⟩ hrestp
            rw [hrec] at ih1 ih2
            dsimp only at ih1 ih2
            refine ⟨?_, ih2⟩
            by_cases hluma : -8 ≤ diff_n 5 (pixel / 2048 % 32) (eprev / 2048 % 32) -
                  diff_n 6 (pixel / 32 % 64) (eprev / 32 % 64) ∧
                diff_n 5 (pixel / 2048 % 32) (eprev / 2048 % 32) -
                  diff_n 6 (pixel / 32 % 64) (eprev / 32 % 64) ≤ 7 ∧
                -16 ≤ diff_n 6 (pixel / 32 % 64) (eprev / 32 % 64) ∧
                diff_n 6 (pixel / 32 % 64) (eprev / 32 % 64) ≤ 15 ∧
                -8 ≤ diff_n 5 (pixel % 32) (eprev % 32) -
                  diff_n 6 (pixel / 32 % 64) (eprev / 32 % 64) ∧
                diff_n 5 (pixel % 32) (eprev % 32) -
                  diff_n 6 (pixel / 32 % 64) (eprev / 32 % 64) ≤ 7
            · -- LUMA
              rw [if_pos hluma]
              obtain ⟨hl1, hl2, hl3, hl4, hl5, hl6⟩ := hluma
              simp only [Q565_OP_LUMA]
              rw [List.append_assoc, List.cons_append, List.cons_append, List.nil_append]
              obtain ⟨hg1, hg2, hg3, -⟩ := luma_byte1_fields
                (diff_n 6 (pixel / 32 % 64) (eprev / 32 % 64) + 16).toNat (by omega)
              obtain ⟨hh1, hh2, -⟩ := luma_byte2_fields
                (diff_n 5 (pixel / 2048 % 32) (eprev / 2048 % 32) -
                  diff_n 6 (pixel / 32 % 64) (eprev / 32 % 64) + 8).toNat (by omega)
                (diff_n 5 (pixel % 32) (eprev % 32) -
                  diff_n 6 (pixel / 32 % 64) (eprev / 32 % 64) + 8).toNat (by omega)
              rw [decodeData_luma toWireLE ⟨eprev, earr⟩ _ _ (body2 ++ tail) hg1 hg2]
              have hpix : direct_bigger_diff eprev
                  (0x80 ||| (diff_n 6 (pixel / 32 % 64) (eprev / 32 % 64) + 16).toNat)
                  (((diff_n 5 (pixel / 2048 % 32) (eprev / 2048 % 32) -
                      diff_n 6 (pixel / 32 % 64) (eprev / 32 % 64) + 8).toNat <<< 4) |||
                    (diff_n 5 (pixel % 32) (eprev % 32) -
                      diff_n 6 (pixel / 32 % 64) (eprev / 32 % 64) + 8).toNat) = pixel := by
                simp only [direct_bigger_diff]
                rw [hg3, hh1, hh2]
                have e1 : ((diff_n 6 (pixel / 32 % 64) (eprev / 32 % 64) + 16).toNat : Int) - 16 =
                    diff_n 6 (pixel / 32 % 64) (eprev / 32 % 64) := by omega
                have e2 : ((diff_n 5 (pixel / 2048 % 32) (eprev / 2048 % 32) -
                    diff_n 6 (pixel / 32 % 64) (eprev / 32 % 64) + 8).toNat : Int) - 8 =
                    diff_n 5 (pixel / 2048 % 32) (eprev / 2048 % 32) -
                      diff_n 6 (pixel / 32 % 64) (eprev / 32 % 64) := by omega
                have e3 : ((diff_n 5 (pixel % 32) (eprev % 32) -
                    diff_n 6 (pixel / 32 % 64) (eprev / 32 % 64) + 8).toNat : Int) - 8 =
                    diff_n 5 (pixel % 32) (eprev % 32) -
                      diff_n 6 (pixel / 32 % 64) (eprev / 32 % 64) := by omega
                rw [e1, e2, e3]
                have e4 : diff_n 5 (pixel / 2048 % 32) (eprev / 2048 % 32) -
                    diff_n 6 (pixel / 32 % 64) (eprev / 32 % 64) +
                    diff_n 6 (pixel / 32 % 64) (eprev / 32 % 64) =
                    diff_n 5 (pixel / 2048 % 32) (eprev / 2048 % 32) := by ring
                have e5 : diff_n 5 (pixel % 32) (eprev % 32) -
                    diff_n 6 (pixel / 32 % 64) (eprev / 32 % 64) +
                    diff_n 6 (pixel / 32 % 64) (eprev / 32 % 64) =
                    diff_n 5 (pixel % 32) (eprev % 32) := by ring
                rw [e4, e5]
                exact apply_diff_round pixel eprev hpx
              rw [hpix, ih1, prependOut_prependOut]
              rfl
            · -- DIFF_INDEXED or RGB565
              rw [if_neg hluma]
              rcases hscan : diffIndexedScan (pixel / 2048 % 32) (pixel / 32 % 64)
                  (pixel % 32) ecomps 0 with - | bs
              · -- RGB565
                simp only [Q565_OP_RGB565]
                rw [List.append_assoc, List.cons_append, List.cons_append,
                  List.cons_append, List.nil_append]
                rw [decodeData_rgb565 toWireLE ⟨eprev, earr⟩ (pixel % 256)
                  (pixel / 256 % 256) (body2 ++ tail)]
                have hpix : pixel % 256 + 256 * (pixel / 256 % 256) = pixel := by omega
                rw [hpix, ih1, prependOut_prependOut]
                rfl
              · -- DIFF_INDEXED
                obtain ⟨j, ra, ga, ba, hj, hget, hb1, hb2, hb3, hb4, hb5, hb6, hbs⟩ :=
                  diffIndexedScan_some ecomps 0 (pixel / 2048 % 32) (pixel / 32 % 64)
                    (pixel % 32) bs hscan
                rw [hbs]
                simp only [Q565_OP_DIFF_INDEXED, Nat.zero_add]
                rw [List.append_assoc, List.cons_append, List.cons_append, List.nil_append]
                have hj64 : j < 64 := by omega
                obtain ⟨hk1, hk2, hk3, hk4, -⟩ := diff_indexed_byte1_fields
                  (diff_n 6 (pixel / 32 % 64) ga + 4).toNat (by omega)
                  (diff_n 5 (pixel / 2048 % 32) ra + 2).toNat (by omega)
                obtain ⟨hm1, hm2, -⟩ := diff_indexed_byte2_fields
                  (diff_n 5 (pixel % 32) ba + 2).toNat (by omega) j hj64
                rw [decodeData_diff_indexed toWireLE ⟨eprev, earr⟩ _ _ (body2 ++ tail)
                  hk1 hk2]
                have hget2 : (ra, ga, ba) = decode_565 (earr.getD j 0) := by
                  rw [← hget]
                  exact (hcomps j hj64).symm ▸ rfl
                have hra : ra = earr.getD j 0 / 2048 % 32 := by
                  have := congrArg Prod.fst hget2
                  simpa [decode_565] using this
                have hga : ga = earr.getD j 0 / 32 % 64 := by
                  have := congrArg (fun t => t.2.1) hget2
                  simpa [decode_565] using this
                have hba : ba = earr.getD j 0 % 32 := by
                  have := congrArg (fun t => t.2.2) hget2
                  simpa [decode_565] using this
                have hpix : indexed_diff earr
                    (0xA0 ||| ((diff_n 6 (pixel / 32 % 64) ga + 4).toNat <<< 2) |||
                      (diff_n 5 (pixel / 2048 % 32) ra + 2).toNat)
                    (((diff_n 5 (pixel % 32) ba + 2).toNat <<< 6) ||| j) = pixel := by
                  simp only [indexed_diff]
                  rw [hk3, hk4, hm1, hm2]
                  have e1 : ((diff_n 6 (pixel / 32 % 64) ga + 4).toNat : Int) - 4 =
                      diff_n 6 (pixel / 32 % 64) ga := by omega
                  have e2 : ((diff_n 5 (pixel / 2048 % 32) ra + 2).toNat : Int) - 2 =
                      diff_n 5 (pixel / 2048 % 32) ra := by omega
                  have e3 : ((diff_n 5 (pixel % 32) ba + 2).toNat : Int) - 2 =
                      diff_n 5 (pixel % 32) ba := by omega
                  rw [e1, e2, e3, hra, hga, hba]
                  exact apply_diff_round pixel (earr.getD j 0) hpx
                rw [hpix, ih1, prependOut_prependOut]
                rfl


/-- Claim C1: encoding any pixel sequence of length `width * height`
(dimensions in `1..65535`, pixels `u16` values) from a fresh context
succeeds, and the validating decoder (fresh context, little-endian output)
decodes the resulting stream to the header `{width, height}` and exactly the
original pixel sequence. -/
theorem roundtrip (width height : Nat) (pixels : List Nat)
    (hw1 : 1 ≤ width) (hw2 : width ≤ 65535) (hh1 : 1 ≤ height)
    (hh2 : height ≤ 65535) (hlen : pixels.length = width * height)
    (hp : ∀ p ∈ pixels, p < 65536) :
    ∃ out eF dF,
      Q565EncodeContext.encode_to_vec_with_state .new width height pixels =
        some (out, eF) ∧
      Q565DecodeContext.decode_to_vec_with_state toWireLE .new out =
        .ok (⟨width, height⟩, pixels, dF) := by
  have hdim : ¬(width * height ≠ pixels.length) := by omega
  obtain ⟨main1, -⟩ :=
    decode_encodeLoop pixels.length pixels le_rfl .new [Q565_OP_END] encInv_new hp
  rcases hrec : encodeLoop .new pixels with ⟨body, eF⟩
  rw [hrec] at main1
  dsimp only at main1
  have main2 : decodeData toWireLE Q565DecodeContext.new (body ++ [Q565_OP_END]) =
      prependOut pixels (decodeData toWireLE ⟨eF.prev, eF.arr⟩ [Q565_OP_END]) := main1
  rw [show (Q565_OP_END : Nat) = 0xFF from rfl, decodeData_end] at main2
  refine ⟨_, eF, ⟨eF.prev, eF.arr⟩,
    by rw [Q565EncodeContext.encode_to_vec_with_state, if_neg hdim, hrec], ?_⟩
  rw [Q565DecodeContext.decode_to_vec_with_state]
  simp only [Q565_OP_END]
  rw [if_neg (by simp [u16le])]
  rw [if_neg (by simp [u16le])]
  have hw : ([0x71, 0x35, 0x36, 0x35] ++ u16le width ++ u16le height ++ body ++
      [0xFF]).getD 4 0 + 256 * ([0x71, 0x35, 0x36, 0x35] ++ u16le width ++
      u16le height ++ body ++ [0xFF]).getD 5 0 = width := by
    simp [u16le, List.getD_cons_succ, List.getD_cons_zero]
    omega
  have hh : ([0x71, 0x35, 0x36, 0x35] ++ u16le width ++ u16le height ++ body ++
      [0xFF]).getD 6 0 + 256 * ([0x71, 0x35, 0x36, 0x35] ++ u16le width ++
      u16le height ++ body ++ [0xFF]).getD 7 0 = height := by
    simp [u16le, List.getD_cons_succ, List.getD_cons_zero]
    omega
  have hdrop : ([0x71, 0x35, 0x36, 0x35] ++ u16le width ++ u16le height ++ body ++
      [0xFF]).drop 8 = body ++ [0xFF] := by
    simp [u16le]
  rw [hdrop, main2]
  simp only [prependOut, List.append_nil]
  rw [hw, hh]


theorem roundtrip_witness :
    ∃ out eF dF,
      Q565EncodeContext.encode_to_vec_with_state .new 1 1 [0x21] = some (out, eF) ∧
      Q565DecodeContext.decode_to_vec_with_state toWireLE .new out =
        .ok (⟨1, 1⟩, [0x21], dF) :=
  roundtrip 1 1 [0x21] (by decide) (by decide) (by decide) (by decide) (by decide)
    (by decide)

end Q565
